import Mathlib

/-!
# Verification of the `lctree` link-cut tree library

A shallow embedding of the Rust sources (`src/index.rs`, `src/node.rs`,
`src/path.rs`, `src/splay.rs`, `src/lctree.rs`) of the `lctree` crate,
together with theorems settling the specification claims.

Conventions of the embedding:
* `f64` weights are modelled by `F64`: exact rationals plus the single
  infinity `F64.inf` that the library actually manufactures
  (`f64::INFINITY`); NaN and `-inf` are never produced by the code paths
  under study.
* Rust panics (failed `assert!`, out-of-bounds `Vec` indexing, a loop that
  cannot terminate) are modelled by `Option`: `none` is a fatal stop,
  `some` a normal return.  Every array read is performed against the
  threaded state at the same program point as in the Rust code.
* `Vec<Node<P>>` becomes `List (Node P)`; `Vec::push`/`pop` on the free
  list of the allocator keeps the top of the stack at the list head.
* the `Path` trait becomes an explicit dictionary `PathOps P`.
-/

namespace LC

/-- The fragment of `f64` exercised by the library: finite values (exact,
as rationals) and `+∞` (`f64::INFINITY`, used for the disconnected-path
sentinel). -/
inductive F64 where
  | fin (q : ℚ)
  | inf
deriving DecidableEq, Repr

namespace F64

/-- Strict `<` on the modelled `f64` fragment (IEEE order restricted to
finite values and `+∞`). -/
def lt : F64 → F64 → Bool
  | .fin a, .fin b => a < b
  | .fin _, .inf => true
  | .inf, _ => false

/-- `f64` addition on the modelled fragment. -/
def add : F64 → F64 → F64
  | .fin a, .fin b => .fin (a + b)
  | _, _ => .inf

end F64

/-- The `Path` trait of `src/path.rs`: a seed from `(weight, index)` and an
in-place associative fold `aggregate`.  `aggregate a b` is the value of `a`
after `a.aggregate(b)`. -/
structure PathOps (P : Type) where
  default : F64 → Nat → P
  aggregate : P → P → P

/-- `FindMax` of `src/path.rs`. -/
structure FindMax where
  max_weight_idx : Nat
  max_weight : F64
deriving DecidableEq, Repr

/-- The `Path` implementation for `FindMax`: keep the strictly larger
weight, ties keep `self`. -/
def FindMax.ops : PathOps FindMax where
  default w i := ⟨i, w⟩
  aggregate a b := if F64.lt a.max_weight b.max_weight then ⟨b.max_weight_idx, b.max_weight⟩ else a

/-- `FindMin` of `src/path.rs`. -/
structure FindMin where
  min_weight_idx : Nat
  min_weight : F64
deriving DecidableEq, Repr

/-- The `Path` implementation for `FindMin`. -/
def FindMin.ops : PathOps FindMin where
  default w i := ⟨i, w⟩
  aggregate a b := if F64.lt b.min_weight a.min_weight then ⟨b.min_weight_idx, b.min_weight⟩ else a

/-- `FindSum` of `src/path.rs`. -/
structure FindSum where
  sum : F64
deriving DecidableEq, Repr

/-- The `Path` implementation for `FindSum`. -/
def FindSum.ops : PathOps FindSum where
  default w _ := ⟨w⟩
  aggregate a b := ⟨F64.add a.sum b.sum⟩

/-- `Parent` of `src/node.rs`: splay parent (`Node`), path-parent
(`Path`), or root of the represented tree's preferred-path forest. -/
inductive Parent where
  | node (p : Nat)
  | path (p : Nat)
  | root
deriving DecidableEq, Repr

/-- `Node<T>` of `src/node.rs`. -/
structure Node (P : Type) where
  idx : Nat
  left : Option Nat
  right : Option Nat
  parent : Parent
  flipped : Bool
  weight : F64
  path : P
  degree : Nat
deriving DecidableEq, Repr

/-- `Node::new` of `src/node.rs`. -/
def Node.new (ops : PathOps P) (idx : Nat) (weight : F64) : Node P :=
  { idx := idx, left := none, right := none, parent := .root, flipped := false,
    weight := weight, path := ops.default weight idx, degree := 0 }

/-- The id allocator of `src/index.rs`.  `deleted_ids` holds the `Vec`
with its top (most recently pushed id) at the head of the list. -/
structure IndexAlloc where
  time_id : Nat
  deleted_ids : List Nat
deriving DecidableEq, Repr

namespace IndexAlloc

/-- `Index::insert`: pop the most recently freed id if any, otherwise
post-increment the counter. -/
def insert : IndexAlloc → Nat × IndexAlloc
  | ⟨t, []⟩ => (t, ⟨t + 1, []⟩)
  | ⟨t, i :: rest⟩ => (i, ⟨t, rest⟩)

/-- `Index::delete`: `assert!(id < self.time_id)`, then push to the free
list.  A failed assert is `none`. -/
def delete (a : IndexAlloc) (id : Nat) : Option IndexAlloc :=
  if id < a.time_id then some ⟨a.time_id, id :: a.deleted_ids⟩ else none

end IndexAlloc

/-- `Forest<P>` of `src/splay.rs`. -/
structure Forest (P : Type) where
  nodes : List (Node P)
  index : IndexAlloc
deriving DecidableEq, Repr

namespace Forest

variable {P : Type}

/-- Read `self.nodes[i]`; `none` models the Rust index panic. -/
def getN (f : Forest P) (i : Nat) : Option (Node P) := f.nodes.get? i

/-- Write `self.nodes[i]` (all call sites have read index `i` first, so
the silent truncation of `List.set` out of range is never exercised). -/
def setN (f : Forest P) (i : Nat) (nd : Node P) : Forest P :=
  { f with nodes := f.nodes.set i nd }

/-- `Forest::new`. -/
def new : Forest P := { nodes := [], index := ⟨0, []⟩ }

/-- `Forest::create_node`. -/
def create_node (ops : PathOps P) (f : Forest P) (weight : F64) : Nat × Forest P :=
  let (idx, ix) := f.index.insert
  if idx < f.nodes.length then
    (idx, { nodes := f.nodes.set idx (Node.new ops idx weight), index := ix })
  else
    (idx, { nodes := f.nodes ++ [Node.new ops idx weight], index := ix })

/-- `Forest::delete_node`: asserts `degree == 0`, then frees the id. -/
def delete_node (f : Forest P) (i : Nat) : Option (Forest P) :=
  (f.getN i).bind fun nd =>
    if nd.degree = 0 then
      (f.index.delete i).map fun ix => { f with index := ix }
    else none

/-- `Forest::set_right`: asserts the right slot is empty. -/
def set_right (f : Forest P) (i r : Nat) : Option (Forest P) :=
  (f.getN i).bind fun nd =>
    if nd.right = none then
      let f1 := f.setN i { nd with right := some r }
      (f1.getN r).map fun rn => f1.setN r { rn with parent := .node i }
    else none

/-- `Forest::set_left`: asserts the left slot is empty; increments both
degrees (a represented-tree edge is being installed). -/
def set_left (f : Forest P) (i l : Nat) : Option (Forest P) :=
  (f.getN i).bind fun nd =>
    if nd.left = none then
      let f1 := f.setN i { nd with left := some l }
      (f1.getN l).bind fun ln =>
        let f2 := f1.setN l { ln with parent := .node i }
        (f2.getN i).bind fun nd2 =>
          let f3 := f2.setN i { nd2 with degree := nd2.degree + 1 }
          (f3.getN l).map fun ln2 => f3.setN l { ln2 with degree := ln2.degree + 1 }
    else none

/-- `Forest::cut_left`: asserts the left child exists; detaches it, marks
it `Root`, decrements both degrees. -/
def cut_left (f : Forest P) (i : Nat) : Option (Forest P) :=
  (f.getN i).bind fun nd =>
    match nd.left with
    | some l =>
      let f1 := f.setN i { nd with left := none }
      (f1.getN l).bind fun ln =>
        let f2 := f1.setN l { ln with parent := .root }
        (f2.getN i).bind fun nd2 =>
          let f3 := f2.setN i { nd2 with degree := nd2.degree - 1 }
          (f3.getN l).map fun ln2 => f3.setN l { ln2 with degree := ln2.degree - 1 }
    | none => none

/-- `Forest::parent_of`: the splay (`Node`) parent, if any. -/
def parent_of (f : Forest P) (i : Nat) : Option (Option Nat) :=
  (f.getN i).map fun nd => match nd.parent with | .node p => some p | _ => none

/-- `Forest::path_parent_of`. -/
def path_parent_of (f : Forest P) (i : Nat) : Option (Option Nat) :=
  (f.getN i).map fun nd => match nd.parent with | .path p => some p | _ => none

/-- `Forest::left_of`. -/
def left_of (f : Forest P) (i : Nat) : Option (Option Nat) :=
  (f.getN i).map fun nd => nd.left

/-- `Forest::right_of`. -/
def right_of (f : Forest P) (i : Nat) : Option (Option Nat) :=
  (f.getN i).map fun nd => nd.right

/-- `Forest::aggregated_path_of`. -/
def aggregated_path_of (f : Forest P) (i : Nat) : Option P :=
  (f.getN i).map fun nd => nd.path

/-- `Forest::normalize`: if flipped, swap the children, clear the flag and
toggle the flag of both (new) children. -/
def normalize (f : Forest P) (i : Nat) : Option (Forest P) :=
  (f.getN i).bind fun nd =>
    if nd.flipped then
      let nd1 := { nd with left := nd.right, right := nd.left, flipped := false }
      let f1 := f.setN i nd1
      (match nd1.left with
       | none => some f1
       | some lc => (f1.getN lc).map fun m => f1.setN lc { m with flipped := !m.flipped } :
        Option (Forest P)).bind
        fun f2 =>
          (match nd1.right with
           | none => some f2
           | some rc => (f2.getN rc).map fun m => f2.setN rc { m with flipped := !m.flipped } :
            Option (Forest P))
    else some f

/-- `Forest::update`: recompute the cached path aggregate of `i` from its
seed and the cached aggregates of its current children. -/
def update (ops : PathOps P) (f : Forest P) (i : Nat) : Option (Forest P) :=
  (f.getN i).bind fun nd =>
    let base := ops.default nd.weight i
    (match nd.left with
     | none => some base
     | some l => (f.getN l).map fun lm => ops.aggregate base lm.path :
        Option P).bind fun a1 =>
    ((match nd.right with
      | none => some a1
      | some r => (f.getN r).map fun rm => ops.aggregate a1 rm.path :
        Option P).map fun a2 =>
    f.setN i { nd with path := a2 })

/-- `Forest::remove_preferred_child`: detach the right child (if any) into
a path subtree and refresh the aggregate. -/
def remove_preferred_child (ops : PathOps P) (f : Forest P) (i : Nat) : Option (Forest P) :=
  (f.getN i).bind fun nd =>
    match nd.right with
    | some r =>
      let f1 := f.setN i { nd with right := none }
      (f1.getN r).bind fun rn =>
        let f2 := f1.setN r { rn with parent := .path i }
        f2.update ops i
    | none => some f

/-- `Forest::flip`: toggle the lazy flag and immediately normalize. -/
def flip (f : Forest P) (i : Nat) : Option (Forest P) :=
  (f.getN i).bind fun nd =>
    let f1 := f.setN i { nd with flipped := !nd.flipped }
    f1.normalize i

/-- `Forest::rotate_left`.  Every array access happens at the same program
point as in the Rust code. -/
def rotate_left (f : Forest P) (i : Nat) : Option (Forest P) :=
  (f.getN i).bind fun nd =>
    match nd.right with
    | some r =>
      -- update the parent's child slot
      (match nd.parent with
       | .node p =>
         (f.getN p).map fun pn =>
           if pn.left = some i then f.setN p { pn with left := some r }
           else f.setN p { pn with right := some r }
       | _ => some f : Option (Forest P)).bind fun f1 =>
      -- nodes[i].right = nodes[r].left
      (f1.getN r).bind fun rn0 =>
      (f1.getN i).bind fun nd1 =>
      let f2 := f1.setN i { nd1 with right := rn0.left }
      -- nodes[r].left = Some(i)
      (f2.getN r).bind fun rn1 =>
      let f3 := f2.setN r { rn1 with left := some i }
      -- nodes[r].parent = nodes[i].parent
      (f3.getN i).bind fun nd2 =>
      (f3.getN r).bind fun rn2 =>
      let f4 := f3.setN r { rn2 with parent := nd2.parent }
      -- nodes[i].parent = Node(r)
      (f4.getN i).bind fun nd3 =>
      let f5 := f4.setN i { nd3 with parent := .node r }
      -- fix the parent of the transplanted child
      (f5.getN i).bind fun nd4 =>
      match nd4.right with
      | some nr => (f5.getN nr).map fun m => f5.setN nr { m with parent := .node i }
      | none => some f5
    | none => none

/-- `Forest::rotate_right` (mirror of `rotate_left`). -/
def rotate_right (f : Forest P) (i : Nat) : Option (Forest P) :=
  (f.getN i).bind fun nd =>
    match nd.left with
    | some l =>
      (match nd.parent with
       | .node p =>
         (f.getN p).map fun pn =>
           if pn.left = some i then f.setN p { pn with left := some l }
           else f.setN p { pn with right := some l }
       | _ => some f : Option (Forest P)).bind fun f1 =>
      (f1.getN l).bind fun ln0 =>
      (f1.getN i).bind fun nd1 =>
      let f2 := f1.setN i { nd1 with left := ln0.right }
      (f2.getN l).bind fun ln1 =>
      let f3 := f2.setN l { ln1 with right := some i }
      (f3.getN i).bind fun nd2 =>
      (f3.getN l).bind fun ln2 =>
      let f4 := f3.setN l { ln2 with parent := nd2.parent }
      (f4.getN i).bind fun nd3 =>
      let f5 := f4.setN i { nd3 with parent := .node l }
      (f5.getN i).bind fun nd4 =>
      match nd4.left with
      | some nl => (f5.getN nl).map fun m => f5.setN nl { m with parent := .node i }
      | none => some f5
    | none => none

/-- `Forest::rotate`: asserts the node has a splay parent, normalizes the
parent then the node, rotates the parent in the lifting direction, and
refreshes the parent's aggregate. -/
def rotate (ops : PathOps P) (f : Forest P) (i : Nat) : Option (Forest P) :=
  (f.getN i).bind fun nd =>
    match nd.parent with
    | .node p =>
      (f.normalize p).bind fun f1 =>
      (f1.normalize i).bind fun f2 =>
      (f2.getN p).bind fun pn =>
      (if pn.left = some i then f2.rotate_right p else f2.rotate_left p).bind fun f3 =>
      f3.update ops p
    | _ => none

/-- The body of `Forest::splay`'s `while` loop, with explicit fuel; `none`
on exhausted fuel models a loop that does not terminate. -/
def splayGo (ops : PathOps P) : Nat → Forest P → Nat → Option (Forest P)
  | 0, _, _ => none
  | fuel + 1, f, i =>
    (f.getN i).bind fun nd =>
      match nd.parent with
      | .node p =>
        ((f.getN p).bind (fun pn =>
          match pn.parent with
          | .node g =>
            (f.getN g).bind fun gn =>
              if (gn.left = some p) = (pn.left = some i) then f.rotate ops p
              else f.rotate ops i
          | _ => some f : Node P → Option (Forest P))).bind fun f1 =>
        (f1.rotate ops i).bind fun f2 =>
        splayGo ops fuel f2 i
      | _ => (f.normalize i).bind fun f1 => f1.update ops i

/-- `Forest::splay`.  The fuel `length + 1` is enough for every
well-formed forest, since an ancestor chain never repeats a node. -/
def splay (ops : PathOps P) (f : Forest P) (i : Nat) : Option (Forest P) :=
  splayGo ops (f.nodes.length + 1) f i

end Forest

section LinkCutTree

variable {P : Type} (ops : PathOps P)

/-- The `while let Some(path_idx) = path_parent_of(v)` loop of
`LinkCutTree::access`, with explicit fuel. -/
def accessGo : Nat → Forest P → Nat → Option (Forest P)
  | 0, _, _ => none
  | fuel + 1, f, v =>
    (f.path_parent_of v).bind fun pp =>
      match pp with
      | some path_idx =>
        (f.splay ops path_idx).bind fun f1 =>
        (f1.remove_preferred_child ops path_idx).bind fun f2 =>
        (f2.set_right path_idx v).bind fun f3 =>
        (f3.splay ops v).bind fun f4 =>
        accessGo fuel f4 v
      | none => some f

/-- `LinkCutTree::access`. -/
def access (f : Forest P) (v : Nat) : Option (Forest P) :=
  (f.splay ops v).bind fun f1 =>
  (f1.remove_preferred_child ops v).bind fun f2 =>
  accessGo ops (f2.nodes.length + 1) f2 v

/-- `LinkCutTree::reroot`. -/
def reroot (f : Forest P) (v : Nat) : Option (Forest P) :=
  (access ops f v).bind fun f1 => f1.flip v

/-- The `while let Some(left) = left_of(root)` walk of
`LinkCutTree::findroot` (read-only), with explicit fuel. -/
def findrootGo (f : Forest P) : Nat → Nat → Option Nat
  | 0, _ => none
  | fuel + 1, root =>
    (f.left_of root).bind fun l =>
      match l with
      | some left => findrootGo f fuel left
      | none => some root

/-- `LinkCutTree::findroot`. -/
def findroot (f : Forest P) (v : Nat) : Option (Nat × Forest P) :=
  (access ops f v).bind fun f1 =>
  (findrootGo f1 (f1.nodes.length + 1) v).bind fun root =>
  (f1.splay ops root).map fun f2 => (root, f2)

/-- `LinkCutTree::connected`: `v == w || findroot(v) == findroot(w)`;
note the short-circuit before any array access when `v == w`. -/
def connected (f : Forest P) (v w : Nat) : Option (Bool × Forest P) :=
  if v = w then some (true, f)
  else
    (findroot ops f v).bind fun (rv, f1) =>
    (findroot ops f1 w).map fun (rw, f2) => (decide (rv = rw), f2)

/-- `LinkCutTree::link`. -/
def link (f : Forest P) (v w : Nat) : Option (Bool × Forest P) :=
  (reroot ops f v).bind fun f1 =>
  (access ops f1 w).bind fun f2 =>
  (f2.parent_of v).bind fun pv =>
    if pv.isSome || v = w then some (false, f2)
    else (f2.set_left v w).map fun f3 => (true, f3)

/-- `LinkCutTree::linked` (`&&` short-circuits as in Rust). -/
def linked (f : Forest P) (v w : Nat) : Option (Bool × Forest P) :=
  (reroot ops f v).bind fun f1 =>
  (access ops f1 w).bind fun f2 =>
  (f2.left_of w).bind fun lw =>
    if lw = some v then
      (f2.right_of v).map fun rv => (decide (rv = none), f2)
    else some (false, f2)

/-- `LinkCutTree::cut`. -/
def cut (f : Forest P) (v w : Nat) : Option (Bool × Forest P) :=
  (linked ops f v w).bind fun (b, f1) =>
    if b then (f1.cut_left w).map fun f2 => (true, f2)
    else some (false, f1)

/-- `usize::MAX`. -/
def usizeMAX : Nat := 2 ^ 64 - 1

/-- `LinkCutTree::path`. -/
def path (f : Forest P) (v w : Nat) : Option (P × Forest P) :=
  (reroot ops f v).bind fun f1 =>
  (access ops f1 w).bind fun f2 =>
  (f2.parent_of v).bind fun pv =>
    if pv = none ∧ v ≠ w then some (ops.default F64.inf usizeMAX, f2)
    else (f2.aggregated_path_of w).map fun a => (a, f2)

/-- `LinkCutTree::make_tree`. -/
def make_tree (f : Forest P) (w : F64) : Nat × Forest P :=
  f.create_node ops w

/-- `LinkCutTree::remove_tree`. -/
def remove_tree (f : Forest P) (i : Nat) : Option (Forest P) :=
  f.delete_node i

end LinkCutTree

/-- The ancestor chain of a node through splay (`Node`) parent links:
`ChainIs f i ch` says the maximal chain starting at `i` is exactly `ch`
(so the last element of `ch` is the splay-tree root above `i`). -/
inductive ChainIs (f : Forest P) : Nat → List Nat → Prop where
  | top {i : Nat} {nd : Node P} :
      f.getN i = some nd → (∀ p, nd.parent ≠ .node p) → ChainIs f i [i]
  | step {i p : Nat} {nd : Node P} {ch : List Nat} :
      f.getN i = some nd → nd.parent = .node p → ChainIs f p ch → ChainIs f i (i :: ch)

/-- Structural well-formedness of the splay forest: child pointers and
`Node`-parent pointers are mutually consistent, and the two child slots of
a node are distinct.  (This is invariant 1 of the specification's data
model, which every reachable forest satisfies.) -/
structure WF (f : Forest P) : Prop where
  okL : ∀ i nd j, f.getN i = some nd → nd.left = some j →
    ∃ m, f.getN j = some m ∧ m.parent = .node i
  okR : ∀ i nd j, f.getN i = some nd → nd.right = some j →
    ∃ m, f.getN j = some m ∧ m.parent = .node i
  okP : ∀ i nd p, f.getN i = some nd → nd.parent = .node p →
    ∃ m, f.getN p = some m ∧ (m.left = some i ∨ m.right = some i)
  okD : ∀ i nd j, f.getN i = some nd → nd.left = some j → nd.right ≠ some j

/-- The five-node splay forest of the `rotate_left_root` unit test of
`src/splay.rs`: node 0 is a root with children 1 and 2, and node 2 has
children 3 and 4. -/
def rotTestForest : Forest FindMax :=
  { nodes :=
      [ { idx := 0, left := some 1, right := some 2, parent := .root, flipped := false,
          weight := .fin 0, path := ⟨0, .fin 0⟩, degree := 0 },
        { idx := 1, left := none, right := none, parent := .node 0, flipped := false,
          weight := .fin 1, path := ⟨1, .fin 1⟩, degree := 0 },
        { idx := 2, left := some 3, right := some 4, parent := .node 0, flipped := false,
          weight := .fin 2, path := ⟨2, .fin 2⟩, degree := 0 },
        { idx := 3, left := none, right := none, parent := .node 2, flipped := false,
          weight := .fin 3, path := ⟨3, .fin 3⟩, degree := 0 },
        { idx := 4, left := none, right := none, parent := .node 2, flipped := false,
          weight := .fin 4, path := ⟨4, .fin 4⟩, degree := 0 } ],
    index := ⟨5, []⟩ }

/-- Swap the two child slots of a node.  The mirrored forest turns a
`rotate_right` situation into the corresponding `rotate_left` situation,
which lets facts about one rotation direction be transported to the
other. -/
def Node.mirror {P : Type} (nd : Node P) : Node P :=
  { nd with left := nd.right, right := nd.left }

/-- Mirror every node of the forest (see `Node.mirror`). -/
def Forest.mirror {P : Type} (f : Forest P) : Forest P :=
  { f with nodes := f.nodes.map Node.mirror }

/-- Executable check of the `WF` conditions at one slot. -/
def wfCheckNode {P : Type} (f : Forest P) (i : Nat) : Bool :=
  match f.getN i with
  | none => true
  | some nd =>
    (match nd.left with
     | none => true
     | some j =>
       match f.getN j with
       | some m => decide (m.parent = Parent.node i)
       | none => false) &&
    (match nd.right with
     | none => true
     | some j =>
       match f.getN j with
       | some m => decide (m.parent = Parent.node i)
       | none => false) &&
    (match nd.parent with
     | Parent.node p =>
       (match f.getN p with
        | some m => decide (m.left = some i) || decide (m.right = some i)
        | none => false)
     | _ => true) &&
    (match nd.left with
     | none => true
     | some j => decide (nd.right ≠ some j))

/-- Executable check of the `WF` well-formedness conditions. -/
def wfCheck {P : Type} (f : Forest P) : Bool :=
  (List.range f.nodes.length).all fun i => wfCheckNode f i

/-! ## Basic facts about the state representation -/

namespace Forest

variable {P : Type}

theorem length_setN (f : Forest P) (i : Nat) (nd : Node P) :
    (f.setN i nd).nodes.length = f.nodes.length := by
  simp [setN]

theorem getN_oob {f : Forest P} {i : Nat} (h : f.nodes.length ≤ i) : f.getN i = none := by
  simp [getN, List.get?_eq_none]; exact h

theorem length_child_toggle {f : Forest P} {oc : Option Nat} {f' : Forest P}
    (h : (match oc with
          | none => some f
          | some c => (f.getN c).map fun m => f.setN c { m with flipped := !m.flipped } :
          Option (Forest P)) = some f') :
    f'.nodes.length = f.nodes.length := by
  cases oc with
  | none => cases h; rfl
  | some c =>
    rw [Option.map_eq_some'] at h
    obtain ⟨m, _, h⟩ := h
    subst h
    simp [length_setN]

theorem length_normalize {f f' : Forest P} {i : Nat} (h : f.normalize i = some f') :
    f'.nodes.length = f.nodes.length := by
  unfold normalize at h
  rw [Option.bind_eq_some] at h
  obtain ⟨nd, hg, h⟩ := h
  split at h
  · rw [Option.bind_eq_some] at h
    obtain ⟨f2, h2, h3⟩ := h
    have e2 := length_child_toggle h2
    have e3 := length_child_toggle h3
    simp [length_setN] at e2
    omega
  · cases h; rfl

theorem length_update {ops : PathOps P} {f f' : Forest P} {i : Nat}
    (h : f.update ops i = some f') : f'.nodes.length = f.nodes.length := by
  unfold update at h
  rw [Option.bind_eq_some] at h
  obtain ⟨nd, hg, h⟩ := h
  rw [Option.bind_eq_some] at h
  obtain ⟨a1, _, h⟩ := h
  rw [Option.map_eq_some'] at h
  obtain ⟨a2, _, h⟩ := h
  subst h
  simp [length_setN]

theorem length_set_right {f f' : Forest P} {i r : Nat} (h : f.set_right i r = some f') :
    f'.nodes.length = f.nodes.length := by
  unfold set_right at h
  rw [Option.bind_eq_some] at h
  obtain ⟨nd, _, h⟩ := h
  split at h
  · rw [Option.map_eq_some'] at h
    obtain ⟨m, _, h⟩ := h
    subst h
    simp [length_setN]
  · cases h

theorem length_set_left {f f' : Forest P} {i l : Nat} (h : f.set_left i l = some f') :
    f'.nodes.length = f.nodes.length := by
  unfold set_left at h
  rw [Option.bind_eq_some] at h
  obtain ⟨nd, _, h⟩ := h
  split at h
  · rw [Option.bind_eq_some] at h
    obtain ⟨m1, _, h⟩ := h
    rw [Option.bind_eq_some] at h
    obtain ⟨m2, _, h⟩ := h
    rw [Option.map_eq_some'] at h
    obtain ⟨m3, _, h⟩ := h
    subst h
    simp [length_setN]
  · cases h

theorem length_cut_left {f f' : Forest P} {i : Nat} (h : f.cut_left i = some f') :
    f'.nodes.length = f.nodes.length := by
  unfold cut_left at h
  rw [Option.bind_eq_some] at h
  obtain ⟨nd, _, h⟩ := h
  split at h
  · rw [Option.bind_eq_some] at h
    obtain ⟨m1, _, h⟩ := h
    rw [Option.bind_eq_some] at h
    obtain ⟨m2, _, h⟩ := h
    rw [Option.map_eq_some'] at h
    obtain ⟨m3, _, h⟩ := h
    subst h
    simp [length_setN]
  · cases h

theorem length_remove_preferred_child {ops : PathOps P} {f f' : Forest P} {i : Nat}
    (h : f.remove_preferred_child ops i = some f') : f'.nodes.length = f.nodes.length := by
  unfold remove_preferred_child at h
  rw [Option.bind_eq_some] at h
  obtain ⟨nd, _, h⟩ := h
  split at h
  · rw [Option.bind_eq_some] at h
    obtain ⟨m1, _, h⟩ := h
    have := length_update h
    simp [length_setN] at this
    exact this
  · cases h; rfl

theorem length_flip {f f' : Forest P} {i : Nat} (h : f.flip i = some f') :
    f'.nodes.length = f.nodes.length := by
  unfold flip at h
  rw [Option.bind_eq_some] at h
  obtain ⟨nd, _, h⟩ := h
  have := length_normalize h
  simp [length_setN] at this
  exact this

theorem length_rotate_left {f f' : Forest P} {i : Nat} (h : f.rotate_left i = some f') :
    f'.nodes.length = f.nodes.length := by
  unfold rotate_left at h
  rw [Option.bind_eq_some] at h
  obtain ⟨nd, _, h⟩ := h
  split at h
  case h_2 => cases h
  case h_1 r heq =>
    rw [Option.bind_eq_some] at h
    obtain ⟨f1, h1, h⟩ := h
    have e1 : f1.nodes.length = f.nodes.length := by
      split at h1
      · rw [Option.map_eq_some'] at h1
        obtain ⟨m, _, h1⟩ := h1
        split at h1 <;> (subst h1; simp [length_setN])
      · cases h1; rfl
    rw [Option.bind_eq_some] at h
    obtain ⟨rn0, _, h⟩ := h
    rw [Option.bind_eq_some] at h
    obtain ⟨nd1, _, h⟩ := h
    rw [Option.bind_eq_some] at h
    obtain ⟨rn1, _, h⟩ := h
    rw [Option.bind_eq_some] at h
    obtain ⟨nd2, _, h⟩ := h
    rw [Option.bind_eq_some] at h
    obtain ⟨rn2, _, h⟩ := h
    rw [Option.bind_eq_some] at h
    obtain ⟨nd3, _, h⟩ := h
    rw [Option.bind_eq_some] at h
    obtain ⟨nd4, _, h⟩ := h
    split at h
    · rw [Option.map_eq_some'] at h
      obtain ⟨m, _, h⟩ := h
      subst h
      simp [length_setN, e1]
    · cases h
      simp [length_setN, e1]

theorem length_rotate_right {f f' : Forest P} {i : Nat} (h : f.rotate_right i = some f') :
    f'.nodes.length = f.nodes.length := by
  unfold rotate_right at h
  rw [Option.bind_eq_some] at h
  obtain ⟨nd, _, h⟩ := h
  split at h
  case h_2 => cases h
  case h_1 l heq =>
    rw [Option.bind_eq_some] at h
    obtain ⟨f1, h1, h⟩ := h
    have e1 : f1.nodes.length = f.nodes.length := by
      split at h1
      · rw [Option.map_eq_some'] at h1
        obtain ⟨m, _, h1⟩ := h1
        split at h1 <;> (subst h1; simp [length_setN])
      · cases h1; rfl
    rw [Option.bind_eq_some] at h
    obtain ⟨ln0, _, h⟩ := h
    rw [Option.bind_eq_some] at h
    obtain ⟨nd1, _, h⟩ := h
    rw [Option.bind_eq_some] at h
    obtain ⟨ln1, _, h⟩ := h
    rw [Option.bind_eq_some] at h
    obtain ⟨nd2, _, h⟩ := h
    rw [Option.bind_eq_some] at h
    obtain ⟨ln2, _, h⟩ := h
    rw [Option.bind_eq_some] at h
    obtain ⟨nd3, _, h⟩ := h
    rw [Option.bind_eq_some] at h
    obtain ⟨nd4, _, h⟩ := h
    split at h
    · rw [Option.map_eq_some'] at h
      obtain ⟨m, _, h⟩ := h
      subst h
      simp [length_setN, e1]
    · cases h
      simp [length_setN, e1]

theorem length_rotate {ops : PathOps P} {f f' : Forest P} {i : Nat}
    (h : f.rotate ops i = some f') : f'.nodes.length = f.nodes.length := by
  unfold rotate at h
  rw [Option.bind_eq_some] at h
  obtain ⟨nd, _, h⟩ := h
  split at h
  case h_2 => cases h
  case h_1 p heq =>
    rw [Option.bind_eq_some] at h
    obtain ⟨f1, h1, h⟩ := h
    rw [Option.bind_eq_some] at h
    obtain ⟨f2, h2, h⟩ := h
    rw [Option.bind_eq_some] at h
    obtain ⟨pn, _, h⟩ := h
    rw [Option.bind_eq_some] at h
    obtain ⟨f3, h3, h⟩ := h
    have e1 := length_normalize h1
    have e2 := length_normalize h2
    have e4 := length_update h
    have e3 : f3.nodes.length = f2.nodes.length := by
      split at h3
      · exact length_rotate_right h3
      · exact length_rotate_left h3
    omega

theorem length_splayGo {ops : PathOps P} {fuel : Nat} {f f' : Forest P} {i : Nat}
    (h : Forest.splayGo ops fuel f i = some f') : f'.nodes.length = f.nodes.length := by
  induction fuel generalizing f with
  | zero => cases h
  | succ fuel ih =>
    unfold splayGo at h
    rw [Option.bind_eq_some] at h
    obtain ⟨nd, _, h⟩ := h
    split at h
    · rw [Option.bind_eq_some] at h
      obtain ⟨f1, h1, h⟩ := h
      rw [Option.bind_eq_some] at h
      obtain ⟨f2, h2, h⟩ := h
      have e3 := ih h
      have e2 := length_rotate h2
      have e1 : f1.nodes.length = f.nodes.length := by
        rw [Option.bind_eq_some] at h1
        obtain ⟨pn, _, h1⟩ := h1
        split at h1
        · rw [Option.bind_eq_some] at h1
          obtain ⟨gn, _, h1⟩ := h1
          split at h1 <;> exact length_rotate h1
        · cases h1; rfl
      omega
    · rw [Option.bind_eq_some] at h
      obtain ⟨f1, h1, h⟩ := h
      have := length_update h
      have := length_normalize h1
      omega

theorem length_splay {ops : PathOps P} {f f' : Forest P} {i : Nat}
    (h : f.splay ops i = some f') : f'.nodes.length = f.nodes.length :=
  length_splayGo h

theorem getN_lt {f : Forest P} {i : Nat} {nd : Node P} (h : f.getN i = some nd) :
    i < f.nodes.length := by
  have := List.get?_eq_some.mp h
  exact this.1

theorem getN_setN_self {f : Forest P} {i : Nat} (h : i < f.nodes.length)
    (m : Node P) : (f.setN i m).getN i = some m := by
  simp [getN, setN, List.getElem?_set_eq_of_lt _ h]

theorem getN_setN_ne {f : Forest P} {i j : Nat} (m : Node P) (h : i ≠ j) :
    (f.setN i m).getN j = f.getN j := by
  simp [getN, setN, List.getElem?_set_ne h]

/-! ### Ancestor chains -/

theorem chainIs_getN {f : Forest P} {i : Nat} {ch : List Nat} (h : ChainIs f i ch) :
    ∃ nd, f.getN i = some nd := by
  cases h with
  | top hg _ => exact ⟨_, hg⟩
  | step hg _ _ => exact ⟨_, hg⟩

theorem chainIs_shape {f : Forest P} {i : Nat} {ch : List Nat} (h : ChainIs f i ch) :
    ∃ ch', ch = i :: ch' := by
  cases h with
  | top _ _ => exact ⟨[], rfl⟩
  | step _ _ _ => exact ⟨_, rfl⟩

theorem chainIs_unique {f : Forest P} {i : Nat} {ch ch' : List Nat}
    (h : ChainIs f i ch) (h' : ChainIs f i ch') : ch = ch' := by
  induction h generalizing ch' with
  | top hg hnp =>
    cases h' with
    | top _ _ => rfl
    | step hg' hp' _ =>
      rw [hg, Option.some.injEq] at hg'
      subst hg'
      exact absurd hp' (hnp _)
  | step hg hp hc ih =>
    cases h' with
    | top hg' hnp' =>
      rw [hg, Option.some.injEq] at hg'
      subst hg'
      exact absurd hp (hnp' _)
    | step hg' hp' hc' =>
      rw [hg, Option.some.injEq] at hg'
      subst hg'
      rw [hp, Parent.node.injEq] at hp'
      subst hp'
      rw [ih hc']

theorem chainIs_mem_suffix {f : Forest P} {a b : Nat} {ch : List Nat}
    (h : ChainIs f a ch) (hb : b ∈ ch) : ∃ s, s <:+ ch ∧ ChainIs f b s := by
  induction h with
  | top hg hnp =>
    rw [List.mem_singleton] at hb
    subst hb
    exact ⟨_, List.suffix_refl _, ChainIs.top hg hnp⟩
  | step hg hp hc ih =>
    rcases List.mem_cons.mp hb with hb | hb
    · subst hb
      exact ⟨_, List.suffix_refl _, ChainIs.step hg hp hc⟩
    · obtain ⟨s, hs, hcs⟩ := ih hb
      exact ⟨s, hs.trans (List.suffix_cons _ _), hcs⟩

theorem chainIs_nodup {f : Forest P} {i : Nat} {ch : List Nat} (h : ChainIs f i ch) :
    ch.Nodup := by
  induction h with
  | top _ _ => simp
  | step hg hp hc ih =>
    refine List.nodup_cons.mpr ⟨?_, ih⟩
    intro hmem
    obtain ⟨s, hs, hcs⟩ := chainIs_mem_suffix hc hmem
    have := chainIs_unique (ChainIs.step hg hp hc) hcs
    subst this
    have := hs.length_le
    simp at this

theorem chainIs_lt {f : Forest P} {i : Nat} {ch : List Nat} (h : ChainIs f i ch) :
    ∀ j ∈ ch, j < f.nodes.length := by
  induction h with
  | top hg _ =>
    intro j hj
    rw [List.mem_singleton] at hj
    subst hj
    exact getN_lt hg
  | step hg _ _ ih =>
    intro j hj
    rcases List.mem_cons.mp hj with hj | hj
    · subst hj; exact getN_lt hg
    · exact ih j hj

theorem chainIs_length_le {f : Forest P} {i : Nat} {ch : List Nat} (h : ChainIs f i ch) :
    ch.length ≤ f.nodes.length := by
  have hnd := chainIs_nodup h
  have hlt := chainIs_lt h
  classical
  calc ch.length = ch.toFinset.card := (List.toFinset_card_of_nodup hnd).symm
    _ ≤ (Finset.range f.nodes.length).card := by
        refine Finset.card_le_card ?_
        intro j hj
        rw [List.mem_toFinset] at hj
        rw [Finset.mem_range]
        exact hlt j hj
    _ = f.nodes.length := Finset.card_range _

theorem chainIs_of_parentEq_on {f f' : Forest P} {a : Nat} {ch : List Nat}
    (h : ChainIs f a ch)
    (hpres : ∀ z ∈ ch, (f'.getN z).map (fun m => m.parent) = (f.getN z).map (fun m => m.parent)) :
    ChainIs f' a ch := by
  induction h with
  | top hg hnp =>
    have := hpres _ (List.mem_singleton_self _)
    rw [hg, Option.map_some'] at this
    rw [Option.map_eq_some'] at this
    obtain ⟨m, hm, hmp⟩ := this
    exact ChainIs.top hm (by rw [hmp]; exact hnp)
  | step hg hp hc ih =>
    have hh := hpres _ (List.mem_cons_self _ _)
    rw [hg, Option.map_some'] at hh
    rw [Option.map_eq_some'] at hh
    obtain ⟨m, hm, hmp⟩ := hh
    refine ChainIs.step hm (by rw [hmp]; exact hp) (ih ?_)
    intro z hz
    exact hpres z (List.mem_cons_of_mem _ hz)

/-- Well-formedness transfers along a state change that swaps (or keeps)
the two child slots of one node `i` and preserves every other structural
field of every node. -/
theorem wf_of_maps {f f' : Forest P} {i : Nat} {nd nd' : Node P} (hWF : WF f)
    (hn : f.getN i = some nd) (hi : f'.getN i = some nd')
    (hlr : (nd'.left = nd.left ∧ nd'.right = nd.right) ∨
           (nd'.left = nd.right ∧ nd'.right = nd.left))
    (hpmap : ∀ y, (f'.getN y).map (fun m => m.parent) = (f.getN y).map (fun m => m.parent))
    (hlmap : ∀ y, y ≠ i → (f'.getN y).map (fun m => m.left) = (f.getN y).map (fun m => m.left))
    (hrmap : ∀ y, y ≠ i → (f'.getN y).map (fun m => m.right) = (f.getN y).map (fun m => m.right)) :
    WF f' := by
  have hex : ∀ y m, f.getN y = some m → ∃ m', f'.getN y = some m' ∧ m'.parent = m.parent := by
    intro y m hm
    have := hpmap y
    rw [hm, Option.map_some', Option.map_eq_some'] at this
    obtain ⟨m', hm', hp⟩ := this
    exact ⟨m', hm', hp⟩
  have hex' : ∀ y m', f'.getN y = some m' → ∃ m, f.getN y = some m ∧ m'.parent = m.parent := by
    intro y m' hm'
    have := (hpmap y).symm
    rw [hm', Option.map_some', Option.map_eq_some'] at this
    obtain ⟨m, hm, hp⟩ := this
    exact ⟨m, hm, hp.symm⟩
  have hLRmaps : ∀ y m m', y ≠ i → f.getN y = some m → f'.getN y = some m' →
      m'.left = m.left ∧ m'.right = m.right := by
    intro y m m' hy hm hm'
    have h1 := hlmap y hy
    have h2 := hrmap y hy
    rw [hm, hm', Option.map_some', Option.map_some', Option.some.injEq] at h1 h2
    exact ⟨h1, h2⟩
  refine ⟨?_, ?_, ?_, ?_⟩
  · -- okL
    intro a and' b ha hab
    by_cases hai : a = i
    · subst hai
      rw [hi, Option.some.injEq] at ha
      subst ha
      rcases hlr with ⟨hl, _⟩ | ⟨hl, _⟩
      · rw [hl] at hab
        obtain ⟨m, hm, hmp⟩ := hWF.okL a nd b hn hab
        obtain ⟨m', hm', hp⟩ := hex b m hm
        exact ⟨m', hm', by rw [hp]; exact hmp⟩
      · rw [hl] at hab
        obtain ⟨m, hm, hmp⟩ := hWF.okR a nd b hn hab
        obtain ⟨m', hm', hp⟩ := hex b m hm
        exact ⟨m', hm', by rw [hp]; exact hmp⟩
    · obtain ⟨m, hm, _⟩ := hex' a and' ha
      obtain ⟨hl, _⟩ := hLRmaps a m and' hai hm ha
      rw [hl] at hab
      obtain ⟨mb, hmb, hmbp⟩ := hWF.okL a m b hm hab
      obtain ⟨mb', hmb', hbp⟩ := hex b mb hmb
      exact ⟨mb', hmb', by rw [hbp]; exact hmbp⟩
  · -- okR
    intro a and' b ha hab
    by_cases hai : a = i
    · subst hai
      rw [hi, Option.some.injEq] at ha
      subst ha
      rcases hlr with ⟨_, hl⟩ | ⟨_, hl⟩
      · rw [hl] at hab
        obtain ⟨m, hm, hmp⟩ := hWF.okR a nd b hn hab
        obtain ⟨m', hm', hp⟩ := hex b m hm
        exact ⟨m', hm', by rw [hp]; exact hmp⟩
      · rw [hl] at hab
        obtain ⟨m, hm, hmp⟩ := hWF.okL a nd b hn hab
        obtain ⟨m', hm', hp⟩ := hex b m hm
        exact ⟨m', hm', by rw [hp]; exact hmp⟩
    · obtain ⟨m, hm, _⟩ := hex' a and' ha
      obtain ⟨_, hl⟩ := hLRmaps a m and' hai hm ha
      rw [hl] at hab
      obtain ⟨mb, hmb, hmbp⟩ := hWF.okR a m b hm hab
      obtain ⟨mb', hmb', hbp⟩ := hex b mb hmb
      exact ⟨mb', hmb', by rw [hbp]; exact hmbp⟩
  · -- okP
    intro b bnd' a hb hbp
    obtain ⟨bm, hbm, hbpar⟩ := hex' b bnd' hb
    rw [hbp] at hbpar
    obtain ⟨am, ham, hslot⟩ := hWF.okP b bm a hbm hbpar.symm
    by_cases hai : a = i
    · subst hai
      rw [hn, Option.some.injEq] at ham
      subst ham
      refine ⟨nd', hi, ?_⟩
      rcases hlr with ⟨hl, hl2⟩ | ⟨hl, hl2⟩
      · rw [hl, hl2]
        exact hslot
      · rw [hl, hl2]
        exact hslot.symm
    · obtain ⟨am', ham', _⟩ := hex a am ham
      obtain ⟨hl, hl2⟩ := hLRmaps a am am' hai ham ham'
      refine ⟨am', ham', ?_⟩
      rw [hl, hl2]
      exact hslot
  · -- okD
    intro a and' b ha hab
    by_cases hai : a = i
    · subst hai
      rw [hi, Option.some.injEq] at ha
      subst ha
      rcases hlr with ⟨hl, hl2⟩ | ⟨hl, hl2⟩
      · rw [hl] at hab
        rw [hl2]
        exact hWF.okD _ nd b hn hab
      · rw [hl] at hab
        rw [hl2]
        intro hcon
        exact hWF.okD _ nd b hn hcon hab
    · obtain ⟨m, hm, _⟩ := hex' a and' ha
      obtain ⟨hl, hl2⟩ := hLRmaps a m and' hai hm ha
      rw [hl] at hab
      rw [hl2]
      exact hWF.okD a m b hm hab

/-- Characterization of `normalize`: parents are untouched, node `i`'s
children are kept or swapped, the flags of `i`'s children toggle, and
well-formedness is preserved. -/
theorem normalize_spec {f : Forest P} {i : Nat} {nd : Node P}
    (hWF : WF f) (hn : f.getN i = some nd) (hself : nd.parent ≠ Parent.node i) :
    ∃ f' nd', f.normalize i = some f' ∧
      f'.getN i = some nd' ∧ nd'.parent = nd.parent ∧
      ((nd'.left = nd.left ∧ nd'.right = nd.right) ∨
       (nd'.left = nd.right ∧ nd'.right = nd.left)) ∧
      (∀ y, (f'.getN y).map (fun m => m.parent) = (f.getN y).map (fun m => m.parent)) ∧
      (∀ y, y ≠ i → (f'.getN y).map (fun m => m.left) = (f.getN y).map (fun m => m.left)) ∧
      (∀ y, y ≠ i → (f'.getN y).map (fun m => m.right) = (f.getN y).map (fun m => m.right)) ∧
      WF f' := by
  have hnlt := getN_lt hn
  by_cases hflip : nd.flipped
  · -- flipped: swap children, toggle the children's flags
    have hcompute : ∀ f₀ : Forest P, ∀ oc : Option Nat,
        (∀ c, oc = some c → ∃ m, f₀.getN c = some m) →
        ∃ f₁, (match oc with
               | none => some f₀
               | some c => (f₀.getN c).map fun m => f₀.setN c { m with flipped := !m.flipped } :
               Option (Forest P)) = some f₁ ∧
          (∀ c m, oc = some c → f₀.getN c = some m →
            f₁.getN c = some { m with flipped := !m.flipped }) ∧
          (∀ y, (∀ c, oc = some c → y ≠ c) → f₁.getN y = f₀.getN y) := by
      intro f₀ oc hex
      cases oc with
      | none =>
        refine ⟨f₀, rfl, ?_, fun y _ => rfl⟩
        intro c m h
        cases h
      | some c =>
        obtain ⟨m, hm⟩ := hex c rfl
        refine ⟨f₀.setN c { m with flipped := !m.flipped },
          by simp only [hm, Option.map_some'], ?_, ?_⟩
        · intro c' m' hc hm'
          rw [Option.some.injEq] at hc
          subst hc
          rw [hm, Option.some.injEq] at hm'
          subst hm'
          exact getN_setN_self (getN_lt hm) _
        · intro y hy
          rw [getN_setN_ne _ (Ne.symm (hy c rfl))]
    -- distinctness of i from its children
    have hLne : ∀ c, nd.right = some c → c ≠ i := by
      intro c hc hci
      rw [hci] at hc
      obtain ⟨m, hm, hmp⟩ := hWF.okR _ nd _ hn hc
      rw [hn, Option.some.injEq] at hm
      subst hm
      exact hself hmp
    have hRne : ∀ c, nd.left = some c → c ≠ i := by
      intro c hc hci
      rw [hci] at hc
      obtain ⟨m, hm, hmp⟩ := hWF.okL _ nd _ hn hc
      rw [hn, Option.some.injEq] at hm
      subst hm
      exact hself hmp
    have hLRne : ∀ c c', nd.right = some c → nd.left = some c' → c ≠ c' := by
      intro c c' hc hc' hcc
      rw [hcc] at hc
      exact hWF.okD _ nd _ hn hc' hc
    -- the write to i
    have h1i : (f.setN i { nd with left := nd.right, right := nd.left, flipped := false }).getN i
        = some { nd with left := nd.right, right := nd.left, flipped := false } :=
      getN_setN_self hnlt _
    have h1other : ∀ y, y ≠ i →
        (f.setN i { nd with left := nd.right, right := nd.left, flipped := false }).getN y
        = f.getN y := by
      intro y hy
      rw [getN_setN_ne _ (Ne.symm hy)]
    obtain ⟨f2, hf2, h2c, h2fr⟩ :=
      hcompute (f.setN i { nd with left := nd.right, right := nd.left, flipped := false })
        nd.right
        (by
          intro c hc
          obtain ⟨m, hm, _⟩ := hWF.okR i nd c hn hc
          exact ⟨m, by rw [h1other c (hLne c hc)]; exact hm⟩)
    obtain ⟨f3, hf3, h3c, h3fr⟩ := hcompute f2 nd.left
        (by
          intro c hc
          obtain ⟨m, hm, _⟩ := hWF.okL i nd c hn hc
          refine ⟨m, ?_⟩
          rw [h2fr c fun c' hc' => (hLRne c' c hc' hc).symm, h1other c (hRne c hc)]
          exact hm)
    have hrec_i :
        f3.getN i = some { nd with left := nd.right, right := nd.left, flipped := false } := by
      rw [h3fr i fun c hc => (hRne c hc).symm, h2fr i fun c hc => (hLne c hc).symm]
      exact h1i
    have hfr_all : ∀ y, y ≠ i → (f3.getN y = f.getN y) ∨
        (∃ m, f.getN y = some m ∧ f3.getN y = some { m with flipped := !m.flipped }) := by
      intro y hyi
      by_cases hyL : nd.right = some y
      · right
        obtain ⟨m, hm, _⟩ := hWF.okR i nd y hn hyL
        refine ⟨m, hm, ?_⟩
        have h1y :
            (f.setN i
              { nd with left := nd.right, right := nd.left, flipped := false }).getN y
            = some m := by
          rw [h1other y hyi]; exact hm
        have h2y := h2c y m hyL h1y
        rw [h3fr y ?hne]
        · exact h2y
        case hne =>
          intro c hc hyc
          rw [hyc] at hyL
          exact hWF.okD i nd c hn hc hyL
      · by_cases hyR : nd.left = some y
        · right
          obtain ⟨m, hm, _⟩ := hWF.okL i nd y hn hyR
          refine ⟨m, hm, ?_⟩
          have h2fry : f2.getN y = some m := by
            rw [h2fr y fun c hc => by intro hyc; rw [hyc] at hyL; exact hyL hc,
              h1other y hyi]
            exact hm
          exact h3c y m hyR h2fry
        · left
          rw [h3fr y fun c hc => by intro hyc; rw [hyc] at hyR; exact hyR hc,
            h2fr y fun c hc => by intro hyc; rw [hyc] at hyL; exact hyL hc,
            h1other y hyi]
    have hpmap : ∀ y, (f3.getN y).map (fun m => m.parent) =
        (f.getN y).map (fun m => m.parent) := by
      intro y
      by_cases hyi : y = i
      · subst hyi
        rw [hrec_i, hn]
        rfl
      · rcases hfr_all y hyi with heq | ⟨m, hm, hm'⟩
        · rw [heq]
        · rw [hm, hm']
          rfl
    have hlmap : ∀ y, y ≠ i → (f3.getN y).map (fun m => m.left) =
        (f.getN y).map (fun m => m.left) := by
      intro y hyi
      rcases hfr_all y hyi with heq | ⟨m, hm, hm'⟩
      · rw [heq]
      · rw [hm, hm']
        rfl
    have hrmap : ∀ y, y ≠ i → (f3.getN y).map (fun m => m.right) =
        (f.getN y).map (fun m => m.right) := by
      intro y hyi
      rcases hfr_all y hyi with heq | ⟨m, hm, hm'⟩
      · rw [heq]
      · rw [hm, hm']
        rfl
    refine ⟨f3, { nd with left := nd.right, right := nd.left, flipped := false }, ?_, hrec_i,
      rfl, Or.inr ⟨rfl, rfl⟩, hpmap, hlmap, hrmap,
      wf_of_maps hWF hn hrec_i (Or.inr ⟨rfl, rfl⟩) hpmap hlmap hrmap⟩
    unfold normalize
    rw [hn, Option.some_bind, if_pos hflip]
    show (match nd.right with
          | none => some (f.setN i { nd with left := nd.right, right := nd.left, flipped := false })
          | some c =>
            ((f.setN i { nd with left := nd.right, right := nd.left, flipped := false }).getN c).map
              fun m => (f.setN i
                { nd with left := nd.right, right := nd.left, flipped := false }).setN c
                { m with flipped := !m.flipped } :
          Option (Forest P)).bind
        (fun f2 => (match nd.left with
          | none => some f2
          | some c => (f2.getN c).map fun m => f2.setN c { m with flipped := !m.flipped } :
          Option (Forest P))) = some f3
    rw [hf2, Option.some_bind]
    exact hf3
  · -- not flipped: no change at all
    refine ⟨f, nd, ?_, hn, rfl, Or.inl ⟨rfl, rfl⟩, fun _ => rfl, fun _ _ => rfl,
      fun _ _ => rfl, hWF⟩
    unfold normalize
    rw [hn, Option.some_bind, if_neg hflip]

/-- Characterization of `update`: it succeeds on any well-formed forest
and changes only the cached aggregate of node `i`. -/
theorem update_spec {ops : PathOps P} {f : Forest P} {i : Nat} {nd : Node P}
    (hWF : WF f) (hn : f.getN i = some nd) :
    ∃ f', f.update ops i = some f' ∧
      (∀ y, (f'.getN y).map (fun m => m.parent) = (f.getN y).map (fun m => m.parent)) ∧
      (∀ y, (f'.getN y).map (fun m => m.left) = (f.getN y).map (fun m => m.left)) ∧
      (∀ y, (f'.getN y).map (fun m => m.right) = (f.getN y).map (fun m => m.right)) ∧
      WF f' := by
  have hnlt := getN_lt hn
  obtain ⟨a1, ha1⟩ : ∃ a1, (match nd.left with
      | none => some (ops.default nd.weight i)
      | some l => (f.getN l).map fun lm => ops.aggregate (ops.default nd.weight i) lm.path :
      Option P) = some a1 := by
    cases hL : nd.left with
    | none => exact ⟨_, rfl⟩
    | some l =>
      obtain ⟨m, hm, _⟩ := hWF.okL i nd l hn hL
      exact ⟨ops.aggregate (ops.default nd.weight i) m.path,
        by simp only [hm, Option.map_some']⟩
  obtain ⟨a2, ha2⟩ : ∃ a2, (match nd.right with
      | none => some a1
      | some r => (f.getN r).map fun rm => ops.aggregate a1 rm.path :
      Option P) = some a2 := by
    cases hR : nd.right with
    | none => exact ⟨_, rfl⟩
    | some r =>
      obtain ⟨m, hm, _⟩ := hWF.okR i nd r hn hR
      exact ⟨ops.aggregate a1 m.path, by simp only [hm, Option.map_some']⟩
  have hrec : (f.setN i { nd with path := a2 }).getN i = some { nd with path := a2 } :=
    getN_setN_self hnlt _
  have hfr : ∀ y, y ≠ i → (f.setN i { nd with path := a2 }).getN y = f.getN y := by
    intro y hy
    rw [getN_setN_ne _ (Ne.symm hy)]
  have hpmap : ∀ y, ((f.setN i { nd with path := a2 }).getN y).map (fun m => m.parent) =
      (f.getN y).map (fun m => m.parent) := by
    intro y
    by_cases hy : y = i
    · subst hy; rw [hrec, hn]; rfl
    · rw [hfr y hy]
  have hlmap : ∀ y, ((f.setN i { nd with path := a2 }).getN y).map (fun m => m.left) =
      (f.getN y).map (fun m => m.left) := by
    intro y
    by_cases hy : y = i
    · subst hy; rw [hrec, hn]; rfl
    · rw [hfr y hy]
  have hrmap : ∀ y, ((f.setN i { nd with path := a2 }).getN y).map (fun m => m.right) =
      (f.getN y).map (fun m => m.right) := by
    intro y
    by_cases hy : y = i
    · subst hy; rw [hrec, hn]; rfl
    · rw [hfr y hy]
  refine ⟨f.setN i { nd with path := a2 }, ?_, hpmap, hlmap, hrmap,
    wf_of_maps hWF hn hrec (Or.inl ⟨rfl, rfl⟩) hpmap (fun y _ => hlmap y)
      (fun y _ => hrmap y)⟩
  unfold update
  rw [hn, Option.some_bind]
  show ((match nd.left with
        | none => some (ops.default nd.weight i)
        | some l => (f.getN l).map fun lm => ops.aggregate (ops.default nd.weight i) lm.path :
        Option P)).bind (fun a1 =>
      ((match nd.right with
        | none => some a1
        | some r => (f.getN r).map fun rm => ops.aggregate a1 rm.path :
        Option P)).map fun a2 => f.setN i { nd with path := a2 }) = _
  rw [ha1, Option.some_bind, ha2, Option.map_some']

theorem chainIs_tail {f : Forest P} {i q : Nat} {rest : List Nat}
    (h : ChainIs f i (i :: q :: rest)) : ChainIs f q (q :: rest) := by
  cases h with
  | step hg hp hc =>
    obtain ⟨ch', hch'⟩ := chainIs_shape hc
    injection hch' with h1 h2
    subst h1
    exact hc

theorem chainIs_step_parent {f : Forest P} {i q : Nat} {rest : List Nat} {nd : Node P}
    (h : ChainIs f i (i :: q :: rest)) (hn : f.getN i = some nd) :
    nd.parent = .node q := by
  cases h with
  | step hg hp hc =>
    obtain ⟨ch', hch'⟩ := chainIs_shape hc
    injection hch' with h1 h2
    subst h1
    rw [hg, Option.some.injEq] at hn
    subst hn
    exact hp

theorem chainIs_child_not_mem {f : Forest P} {a x : Nat} {ch : List Nat} {m : Node P}
    (hch : ChainIs f a ch) (hx : f.getN x = some m) (hp : m.parent = .node a) :
    x ∉ ch := by
  intro hmem
  obtain ⟨s, hs, hcs⟩ := chainIs_mem_suffix hch hmem
  have hxch : ChainIs f x (x :: ch) := ChainIs.step hx hp hch
  have := chainIs_unique hcs hxch
  subst this
  have := hs.length_le
  simp at this

/-- Full record-level characterization of `rotate_left` under the local
well-formedness facts that hold at every call site: `r` takes `n`'s exact
position and parent tag (`Node`/`Root`/`Path`), `n` becomes `r`'s left
child, and `r`'s former left child becomes `n`'s right child. -/
theorem rotate_left_spec {f : Forest P} {n r : Nat} {nd rnd : Node P}
    (hn : f.getN n = some nd) (hr : nd.right = some r) (hrn : f.getN r = some rnd)
    (hnr : n ≠ r)
    (hp : ∀ p, nd.parent = .node p → p ≠ n ∧ p ≠ r ∧ ∃ pnd, f.getN p = some pnd)
    (hx : ∀ x, rnd.left = some x →
      x ≠ n ∧ x ≠ r ∧ (∀ p, nd.parent = .node p → x ≠ p) ∧ ∃ xnd, f.getN x = some xnd) :
    ∃ f', f.rotate_left n = some f' ∧
      f'.getN n = some { nd with right := rnd.left, parent := .node r } ∧
      f'.getN r = some { rnd with left := some n, parent := nd.parent } ∧
      (∀ p pnd, nd.parent = .node p → f.getN p = some pnd →
        f'.getN p = some (if pnd.left = some n then { pnd with left := some r }
                          else { pnd with right := some r })) ∧
      (∀ x xnd, rnd.left = some x → f.getN x = some xnd →
        f'.getN x = some { xnd with parent := .node n }) ∧
      (∀ y, y ≠ n → y ≠ r → (∀ p, nd.parent = .node p → y ≠ p) →
        (∀ x, rnd.left = some x → y ≠ x) → f'.getN y = f.getN y) := by
  have hnlt := getN_lt hn
  have hrlt := getN_lt hrn
  -- step A: the parent's child slot
  obtain ⟨f1, hf1, h1n, h1r, h1p, h1fr⟩ :
      ∃ f1, (match nd.parent with
        | Parent.node p =>
          (f.getN p).map fun pn =>
            if pn.left = some n then f.setN p { pn with left := some r }
            else f.setN p { pn with right := some r }
        | _ => some f : Option (Forest P)) = some f1 ∧
      f1.getN n = some nd ∧ f1.getN r = some rnd ∧
      (∀ p pnd, nd.parent = .node p → f.getN p = some pnd →
        f1.getN p = some (if pnd.left = some n then { pnd with left := some r }
                          else { pnd with right := some r })) ∧
      (∀ y, y ≠ n → y ≠ r → (∀ p, nd.parent = .node p → y ≠ p) → f1.getN y = f.getN y) := by
    cases hpar : nd.parent with
    | node p =>
      obtain ⟨hpn, hpr, pnd, hpnd⟩ := hp p hpar
      refine ⟨if pnd.left = some n then f.setN p { pnd with left := some r }
              else f.setN p { pnd with right := some r }, ?_, ?_, ?_, ?_, ?_⟩
      · simp only [hpnd, Option.map_some']
      · split <;> (rw [getN_setN_ne _ hpn]; exact hn)
      · split <;> (rw [getN_setN_ne _ hpr]; exact hrn)
      · intro q qnd hq hqnd
        rw [Parent.node.injEq] at hq
        subst hq
        rw [hpnd, Option.some.injEq] at hqnd
        subst hqnd
        split <;> simp_all [getN_setN_self (getN_lt hpnd)]
      · intro y hyn hyr hyp
        have hyq := hyp p rfl
        split <;> rw [getN_setN_ne _ (Ne.symm hyq)]
    | path q =>
      refine ⟨f, rfl, hn, hrn, ?_, fun y _ _ _ => rfl⟩
      intro p pnd hp2 _
      cases hp2
    | root =>
      refine ⟨f, rfl, hn, hrn, ?_, fun y _ _ _ => rfl⟩
      intro p pnd hp2 _
      cases hp2
  have h1nlt : n < f1.nodes.length := getN_lt h1n
  have h1rlt : r < f1.nodes.length := getN_lt h1r
  -- name the transplanted child slot so that the case split at the end
  -- substitutes uniformly
  obtain ⟨rl, hrl⟩ : ∃ a, a = rnd.left := ⟨_, rfl⟩
  rw [← hrl] at hx
  simp only [← hrl]
  -- the successive writes
  have hf2n : (f1.setN n { nd with right := rl }).getN n =
      some { nd with right := rl } := getN_setN_self h1nlt _
  have hf2r : (f1.setN n { nd with right := rl }).getN r = some rnd := by
    rw [getN_setN_ne _ hnr]; exact h1r
  have h2rlt : r < (f1.setN n { nd with right := rl }).nodes.length := by
    simpa [length_setN] using h1rlt
  have hf3r : ((f1.setN n { nd with right := rl }).setN r
      { rnd with left := some n }).getN r = some { rnd with left := some n } :=
    getN_setN_self h2rlt _
  have hf3n : ((f1.setN n { nd with right := rl }).setN r
      { rnd with left := some n }).getN n = some { nd with right := rl } := by
    rw [getN_setN_ne _ (Ne.symm hnr)]; exact hf2n
  have h3rlt : r < ((f1.setN n { nd with right := rl }).setN r
      { rnd with left := some n }).nodes.length := by
    simpa [length_setN] using h1rlt
  have hf4r : (((f1.setN n { nd with right := rl }).setN r
      { rnd with left := some n }).setN r
      { rnd with left := some n, parent := nd.parent }).getN r =
      some { rnd with left := some n, parent := nd.parent } := getN_setN_self h3rlt _
  have hf4n : (((f1.setN n { nd with right := rl }).setN r
      { rnd with left := some n }).setN r
      { rnd with left := some n, parent := nd.parent }).getN n =
      some { nd with right := rl } := by
    rw [getN_setN_ne _ (Ne.symm hnr)]; exact hf3n
  have h4nlt : n < (((f1.setN n { nd with right := rl }).setN r
      { rnd with left := some n }).setN r
      { rnd with left := some n, parent := nd.parent }).nodes.length := by
    simpa [length_setN] using h1nlt
  have hf5n : ((((f1.setN n { nd with right := rl }).setN r
      { rnd with left := some n }).setN r
      { rnd with left := some n, parent := nd.parent }).setN n
      { nd with right := rl, parent := Parent.node r }).getN n =
      some { nd with right := rl, parent := Parent.node r } := getN_setN_self h4nlt _
  have hf5r : ((((f1.setN n { nd with right := rl }).setN r
      { rnd with left := some n }).setN r
      { rnd with left := some n, parent := nd.parent }).setN n
      { nd with right := rl, parent := Parent.node r }).getN r =
      some { rnd with left := some n, parent := nd.parent } := by
    rw [getN_setN_ne _ hnr]; exact hf4r
  have hf5fr : ∀ y, y ≠ n → y ≠ r →
      ((((f1.setN n { nd with right := rl }).setN r
      { rnd with left := some n }).setN r
      { rnd with left := some n, parent := nd.parent }).setN n
      { nd with right := rl, parent := Parent.node r }).getN y = f1.getN y := by
    intro y hyn hyr
    rw [getN_setN_ne _ (Ne.symm hyn), getN_setN_ne _ (Ne.symm hyr),
      getN_setN_ne _ (Ne.symm hyr), getN_setN_ne _ (Ne.symm hyn)]
  -- assemble, by cases on the transplanted child
  cases rl with
  | none =>
    refine ⟨(((f1.setN n { nd with right := none }).setN r
        { rnd with left := some n }).setN r
        { rnd with left := some n, parent := nd.parent }).setN n
        { nd with right := none, parent := Parent.node r }, ?_, ?_, ?_, ?_, ?_, ?_⟩
    · unfold rotate_left
      simp only [hn, Option.some_bind, hr, hf1, h1r, h1n, ← hrl, hf2r, hf3n, hf3r,
        hf4n, hf5n]
    · exact hf5n
    · exact hf5r
    · intro p pnd hpp hppnd
      obtain ⟨hpn2, hpr2, _⟩ := hp p hpp
      rw [hf5fr p hpn2 hpr2]
      exact h1p p pnd hpp hppnd
    · intro x xnd hx2
      cases hx2
    · intro y hyn hyr hyp _
      rw [hf5fr y hyn hyr]
      exact h1fr y hyn hyr hyp
  | some x =>
    obtain ⟨hxn, hxr, hxp, xnd, hxnd⟩ := hx x rfl
    have hf5x : ((((f1.setN n { nd with right := some x }).setN r
        { rnd with left := some n }).setN r
        { rnd with left := some n, parent := nd.parent }).setN n
        { nd with right := some x, parent := Parent.node r }).getN x = some xnd := by
      rw [hf5fr x hxn hxr, h1fr x hxn hxr hxp]
      exact hxnd
    have hxlt := getN_lt hf5x
    refine ⟨((((f1.setN n { nd with right := some x }).setN r
        { rnd with left := some n }).setN r
        { rnd with left := some n, parent := nd.parent }).setN n
        { nd with right := some x, parent := Parent.node r }).setN x
        { xnd with parent := Parent.node n }, ?_, ?_, ?_, ?_, ?_, ?_⟩
    · unfold rotate_left
      simp only [hn, Option.some_bind, hr, hf1, h1r, h1n, ← hrl, hf2r, hf3n, hf3r,
        hf4n, hf5n, hf5x, Option.map_some']
    · rw [getN_setN_ne _ hxn]
      exact hf5n
    · rw [getN_setN_ne _ hxr]
      exact hf5r
    · intro p pnd hpp hppnd
      obtain ⟨hpn2, hpr2, _⟩ := hp p hpp
      rw [getN_setN_ne _ (hxp p hpp), hf5fr p hpn2 hpr2]
      exact h1p p pnd hpp hppnd
    · intro x2 xnd2 hx2 hxnd2
      rw [Option.some.injEq] at hx2
      subst hx2
      rw [hxnd, Option.some.injEq] at hxnd2
      subst hxnd2
      exact getN_setN_self hxlt _
    · intro y hyn hyr hyp hyx
      rw [getN_setN_ne _ (Ne.symm (hyx x rfl)), hf5fr y hyn hyr]
      exact h1fr y hyn hyr hyp

/-- Mirror characterization of `rotate_right`: `l` takes `n`'s exact
position and parent tag, `n` becomes `l`'s right child, and `l`'s former
right child becomes `n`'s left child. -/
theorem rotate_right_spec {f : Forest P} {n l : Nat} {nd lnd : Node P}
    (hn : f.getN n = some nd) (hr : nd.left = some l) (hrn : f.getN l = some lnd)
    (hnr : n ≠ l)
    (hp : ∀ p, nd.parent = .node p → p ≠ n ∧ p ≠ l ∧ ∃ pnd, f.getN p = some pnd)
    (hx : ∀ x, lnd.right = some x →
      x ≠ n ∧ x ≠ l ∧ (∀ p, nd.parent = .node p → x ≠ p) ∧ ∃ xnd, f.getN x = some xnd) :
    ∃ f', f.rotate_right n = some f' ∧
      f'.getN n = some { nd with left := lnd.right, parent := .node l } ∧
      f'.getN l = some { lnd with right := some n, parent := nd.parent } ∧
      (∀ p pnd, nd.parent = .node p → f.getN p = some pnd →
        f'.getN p = some (if pnd.left = some n then { pnd with left := some l }
                          else { pnd with right := some l })) ∧
      (∀ x xnd, lnd.right = some x → f.getN x = some xnd →
        f'.getN x = some { xnd with parent := .node n }) ∧
      (∀ y, y ≠ n → y ≠ l → (∀ p, nd.parent = .node p → y ≠ p) →
        (∀ x, lnd.right = some x → y ≠ x) → f'.getN y = f.getN y) := by
  have hnlt := getN_lt hn
  have hrlt := getN_lt hrn
  -- step A: the parent's child slot
  obtain ⟨f1, hf1, h1n, h1r, h1p, h1fr⟩ :
      ∃ f1, (match nd.parent with
        | Parent.node p =>
          (f.getN p).map fun pn =>
            if pn.left = some n then f.setN p { pn with left := some l }
            else f.setN p { pn with right := some l }
        | _ => some f : Option (Forest P)) = some f1 ∧
      f1.getN n = some nd ∧ f1.getN l = some lnd ∧
      (∀ p pnd, nd.parent = .node p → f.getN p = some pnd →
        f1.getN p = some (if pnd.left = some n then { pnd with left := some l }
                          else { pnd with right := some l })) ∧
      (∀ y, y ≠ n → y ≠ l → (∀ p, nd.parent = .node p → y ≠ p) → f1.getN y = f.getN y) := by
    cases hpar : nd.parent with
    | node p =>
      obtain ⟨hpn, hpr, pnd, hpnd⟩ := hp p hpar
      refine ⟨if pnd.left = some n then f.setN p { pnd with left := some l }
              else f.setN p { pnd with right := some l }, ?_, ?_, ?_, ?_, ?_⟩
      · simp only [hpnd, Option.map_some']
      · split <;> (rw [getN_setN_ne _ hpn]; exact hn)
      · split <;> (rw [getN_setN_ne _ hpr]; exact hrn)
      · intro q qnd hq hqnd
        rw [Parent.node.injEq] at hq
        subst hq
        rw [hpnd, Option.some.injEq] at hqnd
        subst hqnd
        split <;> simp_all [getN_setN_self (getN_lt hpnd)]
      · intro y hyn hyr hyp
        have hyq := hyp p rfl
        split <;> rw [getN_setN_ne _ (Ne.symm hyq)]
    | path q =>
      refine ⟨f, rfl, hn, hrn, ?_, fun y _ _ _ => rfl⟩
      intro p pnd hp2 _
      cases hp2
    | root =>
      refine ⟨f, rfl, hn, hrn, ?_, fun y _ _ _ => rfl⟩
      intro p pnd hp2 _
      cases hp2
  have h1nlt : n < f1.nodes.length := getN_lt h1n
  have h1rlt : l < f1.nodes.length := getN_lt h1r
  -- name the transplanted child slot so that the case split at the end
  -- substitutes uniformly
  obtain ⟨rl, hrl⟩ : ∃ a, a = lnd.right := ⟨_, rfl⟩
  rw [← hrl] at hx
  simp only [← hrl]
  -- the successive writes
  have hf2n : (f1.setN n { nd with left := rl }).getN n =
      some { nd with left := rl } := getN_setN_self h1nlt _
  have hf2r : (f1.setN n { nd with left := rl }).getN l = some lnd := by
    rw [getN_setN_ne _ hnr]; exact h1r
  have h2rlt : l < (f1.setN n { nd with left := rl }).nodes.length := by
    simpa [length_setN] using h1rlt
  have hf3r : ((f1.setN n { nd with left := rl }).setN l
      { lnd with right := some n }).getN l = some { lnd with right := some n } :=
    getN_setN_self h2rlt _
  have hf3n : ((f1.setN n { nd with left := rl }).setN l
      { lnd with right := some n }).getN n = some { nd with left := rl } := by
    rw [getN_setN_ne _ (Ne.symm hnr)]; exact hf2n
  have h3rlt : l < ((f1.setN n { nd with left := rl }).setN l
      { lnd with right := some n }).nodes.length := by
    simpa [length_setN] using h1rlt
  have hf4r : (((f1.setN n { nd with left := rl }).setN l
      { lnd with right := some n }).setN l
      { lnd with right := some n, parent := nd.parent }).getN l =
      some { lnd with right := some n, parent := nd.parent } := getN_setN_self h3rlt _
  have hf4n : (((f1.setN n { nd with left := rl }).setN l
      { lnd with right := some n }).setN l
      { lnd with right := some n, parent := nd.parent }).getN n =
      some { nd with left := rl } := by
    rw [getN_setN_ne _ (Ne.symm hnr)]; exact hf3n
  have h4nlt : n < (((f1.setN n { nd with left := rl }).setN l
      { lnd with right := some n }).setN l
      { lnd with right := some n, parent := nd.parent }).nodes.length := by
    simpa [length_setN] using h1nlt
  have hf5n : ((((f1.setN n { nd with left := rl }).setN l
      { lnd with right := some n }).setN l
      { lnd with right := some n, parent := nd.parent }).setN n
      { nd with left := rl, parent := Parent.node l }).getN n =
      some { nd with left := rl, parent := Parent.node l } := getN_setN_self h4nlt _
  have hf5r : ((((f1.setN n { nd with left := rl }).setN l
      { lnd with right := some n }).setN l
      { lnd with right := some n, parent := nd.parent }).setN n
      { nd with left := rl, parent := Parent.node l }).getN l =
      some { lnd with right := some n, parent := nd.parent } := by
    rw [getN_setN_ne _ hnr]; exact hf4r
  have hf5fr : ∀ y, y ≠ n → y ≠ l →
      ((((f1.setN n { nd with left := rl }).setN l
      { lnd with right := some n }).setN l
      { lnd with right := some n, parent := nd.parent }).setN n
      { nd with left := rl, parent := Parent.node l }).getN y = f1.getN y := by
    intro y hyn hyr
    rw [getN_setN_ne _ (Ne.symm hyn), getN_setN_ne _ (Ne.symm hyr),
      getN_setN_ne _ (Ne.symm hyr), getN_setN_ne _ (Ne.symm hyn)]
  -- assemble, by cases on the transplanted child
  cases rl with
  | none =>
    refine ⟨(((f1.setN n { nd with left := none }).setN l
        { lnd with right := some n }).setN l
        { lnd with right := some n, parent := nd.parent }).setN n
        { nd with left := none, parent := Parent.node l }, ?_, ?_, ?_, ?_, ?_, ?_⟩
    · unfold rotate_right
      simp only [hn, Option.some_bind, hr, hf1, h1r, h1n, ← hrl, hf2r, hf3n, hf3r,
        hf4n, hf5n]
    · exact hf5n
    · exact hf5r
    · intro p pnd hpp hppnd
      obtain ⟨hpn2, hpr2, _⟩ := hp p hpp
      rw [hf5fr p hpn2 hpr2]
      exact h1p p pnd hpp hppnd
    · intro x xnd hx2
      cases hx2
    · intro y hyn hyr hyp _
      rw [hf5fr y hyn hyr]
      exact h1fr y hyn hyr hyp
  | some x =>
    obtain ⟨hxn, hxr, hxp, xnd, hxnd⟩ := hx x rfl
    have hf5x : ((((f1.setN n { nd with left := some x }).setN l
        { lnd with right := some n }).setN l
        { lnd with right := some n, parent := nd.parent }).setN n
        { nd with left := some x, parent := Parent.node l }).getN x = some xnd := by
      rw [hf5fr x hxn hxr, h1fr x hxn hxr hxp]
      exact hxnd
    have hxlt := getN_lt hf5x
    refine ⟨((((f1.setN n { nd with left := some x }).setN l
        { lnd with right := some n }).setN l
        { lnd with right := some n, parent := nd.parent }).setN n
        { nd with left := some x, parent := Parent.node l }).setN x
        { xnd with parent := Parent.node n }, ?_, ?_, ?_, ?_, ?_, ?_⟩
    · unfold rotate_right
      simp only [hn, Option.some_bind, hr, hf1, h1r, h1n, ← hrl, hf2r, hf3n, hf3r,
        hf4n, hf5n, hf5x, Option.map_some']
    · rw [getN_setN_ne _ hxn]
      exact hf5n
    · rw [getN_setN_ne _ hxr]
      exact hf5r
    · intro p pnd hpp hppnd
      obtain ⟨hpn2, hpr2, _⟩ := hp p hpp
      rw [getN_setN_ne _ (hxp p hpp), hf5fr p hpn2 hpr2]
      exact h1p p pnd hpp hppnd
    · intro x2 xnd2 hx2 hxnd2
      rw [Option.some.injEq] at hx2
      subst hx2
      rw [hxnd, Option.some.injEq] at hxnd2
      subst hxnd2
      exact getN_setN_self hxlt _
    · intro y hyn hyr hyp hyx
      rw [getN_setN_ne _ (Ne.symm (hyx x rfl)), hf5fr y hyn hyr]
      exact h1fr y hyn hyr hyp

/-- After the rotation that lifts `i` over its parent `q` (with `i` the
left child of `q`), described record-for-record by the conclusions of
`rotate_right_spec`, well-formedness is preserved, `i`'s ancestor chain
loses `q`, `q` hangs below `i`, and any other splay child of `i` either
keeps `i` as parent or was transplanted below `q`. -/
theorem lift_step_right {f2 f3 : Forest P} {i q : Nat} {rest : List Nat} {ind qnd : Node P}
    (hWF : WF f2)
    (hch : ChainIs f2 i (i :: q :: rest))
    (hi : f2.getN i = some ind) (hq : f2.getN q = some qnd)
    (hql : qnd.left = some i)
    (hA1 : f3.getN i = some { ind with right := some q, parent := qnd.parent })
    (hA2 : f3.getN q = some { qnd with left := ind.right, parent := .node i })
    (hA3 : ∀ p pnd, qnd.parent = .node p → f2.getN p = some pnd →
      f3.getN p = some (if pnd.left = some q then { pnd with left := some i }
                        else { pnd with right := some i }))
    (hA4 : ∀ x xnd, ind.right = some x → f2.getN x = some xnd →
      f3.getN x = some { xnd with parent := .node q })
    (hA5 : ∀ y, y ≠ q → y ≠ i → (∀ p, qnd.parent = .node p → y ≠ p) →
      (∀ x, ind.right = some x → y ≠ x) → f3.getN y = f2.getN y) :
    WF f3 ∧ ChainIs f3 i (i :: rest) ∧ ChainIs f3 q (q :: i :: rest) ∧
      (∀ y ynd, f2.getN y = some ynd → ynd.parent = .node i →
        ChainIs f3 y (y :: i :: rest) ∨ ChainIs f3 y (y :: q :: i :: rest)) := by
  have hip : ind.parent = .node q := chainIs_step_parent hch hi
  have hqch : ChainIs f2 q (q :: rest) := chainIs_tail hch
  have hnodup := chainIs_nodup hch
  have hqi : q ≠ i := by
    intro h
    subst h
    simp at hnodup
  have hinrest : i ∉ rest := by
    intro h
    simp [List.nodup_cons] at hnodup
    exact hnodup.1.2 h
  have hqnrest : q ∉ rest := by
    intro h
    simp [List.nodup_cons] at hnodup
    exact hnodup.2.1 h
  -- the shape of q's parent
  have hqparfacts : (rest = [] ∧ ∀ p, qnd.parent ≠ .node p) ∨
      (∃ g rest2, rest = g :: rest2 ∧ qnd.parent = .node g ∧ ChainIs f2 g (g :: rest2)) := by
    cases hqch with
    | top hg hnp =>
      rw [hq, Option.some.injEq] at hg
      subst hg
      exact Or.inl ⟨rfl, hnp⟩
    | step hg hp hc =>
      rw [hq, Option.some.injEq] at hg
      subst hg
      obtain ⟨ch', hch'⟩ := chainIs_shape hc
      subst hch'
      exact Or.inr ⟨_, _, rfl, hp, hc⟩
  have hqp_ne_i : qnd.parent ≠ .node i := by
    rcases hqparfacts with ⟨_, hnp⟩ | ⟨g, rest2, hrest, hgp, _⟩
    · exact hnp i
    · rw [hgp]
      intro hcon
      rw [Parent.node.injEq] at hcon
      subst hcon
      exact hinrest (hrest ▸ List.mem_cons_self _ _)
  have hqp_ne_q : qnd.parent ≠ .node q := by
    rcases hqparfacts with ⟨_, hnp⟩ | ⟨g, rest2, hrest, hgp, _⟩
    · exact hnp q
    · rw [hgp]
      intro hcon
      rw [Parent.node.injEq] at hcon
      subst hcon
      exact hqnrest (hrest ▸ List.mem_cons_self _ _)
  -- the transplanted child, if any
  have hxfacts : ∀ x, ind.right = some x →
      (∃ xnd, f2.getN x = some xnd ∧ xnd.parent = .node i) ∧ x ∉ (i :: q :: rest) := by
    intro x hx
    obtain ⟨xnd, hxnd, hxp⟩ := hWF.okR i ind x hi hx
    exact ⟨⟨xnd, hxnd, hxp⟩, chainIs_child_not_mem hch hxnd hxp⟩
  have hxne : ∀ x, ind.right = some x → x ≠ i ∧ x ≠ q ∧ x ∉ rest := by
    intro x hx
    have h := (hxfacts x hx).2
    simp [List.mem_cons] at h
    exact ⟨h.1, h.2.1, h.2.2⟩
  -- a node on q's upper chain is none of i, q, or the transplanted child
  have hrest_ne : ∀ z, z ∈ rest → z ≠ q ∧ z ≠ i ∧ (∀ x, ind.right = some x → z ≠ x) := by
    intro z hz
    refine ⟨fun h => hqnrest (h ▸ hz), fun h => hinrest (h ▸ hz), ?_⟩
    intro x hx hzx
    exact (hxne x hx).2.2 (hzx ▸ hz)
  -- g-nodes keep their parent; everything outside the written set is untouched
  have hpm3 : ∀ y, y ≠ q → y ≠ i → (∀ x, ind.right = some x → y ≠ x) →
      (f3.getN y).map (fun m => m.parent) = (f2.getN y).map (fun m => m.parent) := by
    intro y hyq hyi hyx
    by_cases hyg : qnd.parent = .node y
    · obtain ⟨gnd, hgnd, _⟩ := hWF.okP q qnd y hq hyg
      rw [hA3 y gnd hyg hgnd, hgnd]
      split <;> rfl
    · rw [hA5 y hyq hyi (fun p hp hyp => hyg (hyp ▸ hp)) hyx]
  -- i's new chain
  have hchi3 : ChainIs f3 i (i :: rest) := by
    rcases hqparfacts with ⟨hrest, hnp⟩ | ⟨g, rest2, hrest, hgp, hgch⟩
    · subst hrest
      exact ChainIs.top hA1 hnp
    · subst hrest
      refine ChainIs.step hA1 hgp ?_
      refine chainIs_of_parentEq_on hgch ?_
      intro z hz
      obtain ⟨hz1, hz2, hz3⟩ := hrest_ne z hz
      exact hpm3 z hz1 hz2 hz3
  have hchq3 : ChainIs f3 q (q :: i :: rest) := ChainIs.step hA2 rfl hchi3
  -- a former splay child of i in the new state
  have hchild : ∀ y ynd, f2.getN y = some ynd → ynd.parent = .node i →
      ChainIs f3 y (y :: i :: rest) ∨ ChainIs f3 y (y :: q :: i :: rest) := by
    intro y ynd hy hyp
    have hyne_i : y ≠ i := by
      intro h
      subst h
      rw [hy, Option.some.injEq] at hi
      subst hi
      rw [hyp, Parent.node.injEq] at hip
      exact hqi hip.symm
    have hyne_q : y ≠ q := by
      intro h
      subst h
      rw [hy, Option.some.injEq] at hq
      subst hq
      exact hqp_ne_i hyp
    by_cases hyx : ind.right = some y
    · right
      exact ChainIs.step (hA4 y ynd hyx hy) rfl hchq3
    · left
      have hyg : ∀ p, qnd.parent = .node p → y ≠ p := by
        intro p hp hyp2
        subst hyp2
        rcases hqparfacts with ⟨_, hnp⟩ | ⟨g, rest2, hrest, hgp, hgch⟩
        · exact hnp y hp
        · rw [hgp, Parent.node.injEq] at hp
          subst hp
          cases hgch with
          | top hg2 hnp2 =>
            rw [hy, Option.some.injEq] at hg2
            subst hg2
            exact hnp2 i hyp
          | step hg2 hp2 hc2 =>
            rw [hy, Option.some.injEq] at hg2
            subst hg2
            rw [hyp, Parent.node.injEq] at hp2
            obtain ⟨ch', hch'⟩ := chainIs_shape hc2
            rw [← hp2] at hch'
            have : i ∈ rest := by
              rw [hrest, hch']
              exact List.mem_cons_of_mem _ (List.mem_cons_self _ _)
            exact hinrest this
      have hfr : f3.getN y = f2.getN y :=
        hA5 y hyne_q hyne_i hyg (fun x hx hyx2 => hyx (hyx2 ▸ hx))
      exact ChainIs.step (show f3.getN y = some ynd by rw [hfr]; exact hy) hyp hchi3
  have hpm3x : ∀ y m, f2.getN y = some m → y ≠ q → y ≠ i →
      (∀ x, ind.right = some x → y ≠ x) →
      ∃ m', f3.getN y = some m' ∧ m'.parent = m.parent := by
    intro y m hm h1 h2 h3
    have := hpm3 y h1 h2 h3
    rw [hm, Option.map_some', Option.map_eq_some'] at this
    obtain ⟨m', hm', hp⟩ := this
    exact ⟨m', hm', hp⟩
  refine ⟨⟨?_, ?_, ?_, ?_⟩, hchi3, hchq3, hchild⟩
  · -- okL
    intro a am' b ha hab
    by_cases haq : a = q
    · subst haq
      rw [hA2, Option.some.injEq] at ha
      subst ha
      have hab' : ind.right = some b := hab
      obtain ⟨⟨xnd, hxnd, _⟩, _⟩ := hxfacts b hab'
      exact ⟨{ xnd with parent := .node a }, hA4 b xnd hab' hxnd, rfl⟩
    · by_cases hai : a = i
      · subst hai
        rw [hA1, Option.some.injEq] at ha
        subst ha
        have hab' : ind.left = some b := hab
        obtain ⟨bm, hbm, hbmp⟩ := hWF.okL a ind b hi hab'
        have hbne_i : b ≠ a := by
          intro h
          subst h
          rw [hbm, Option.some.injEq] at hi
          subst hi
          rw [hbmp, Parent.node.injEq] at hip
          exact hqi hip.symm
        have hbne_q : b ≠ q := by
          intro h
          subst h
          rw [hq, Option.some.injEq] at hbm
          subst hbm
          exact hqp_ne_i hbmp
        have hbne_x : ∀ x, ind.right = some x → b ≠ x := by
          intro x hx hbx
          rw [hbx] at hab'
          exact hWF.okD a ind x hi hab' hx
        obtain ⟨m', hm', hp⟩ := hpm3x b bm hbm hbne_q hbne_i hbne_x
        exact ⟨m', hm', by rw [hp]; exact hbmp⟩
      · by_cases hag : qnd.parent = .node a
        · obtain ⟨gnd, hgnd, _⟩ := hWF.okP q qnd a hq hag
          have ha3 := hA3 a gnd hag hgnd
          by_cases hslot : gnd.left = some q
          · rw [if_pos hslot] at ha3
            rw [ha3, Option.some.injEq] at ha
            subst ha
            have hab' : (some i : Option Nat) = some b := hab
            rw [Option.some.injEq] at hab'
            subst hab'
            exact ⟨_, hA1, hag⟩
          · rw [if_neg hslot] at ha3
            rw [ha3, Option.some.injEq] at ha
            subst ha
            have hab' : gnd.left = some b := hab
            obtain ⟨bm, hbm, hbmp⟩ := hWF.okL a gnd b hgnd hab'
            have hbne_q : b ≠ q := by
              intro h
              rw [h] at hab'
              exact hslot hab'
            have hbne_i : b ≠ i := by
              intro h
              subst h
              rw [hi, Option.some.injEq] at hbm
              subst hbm
              rw [hip, Parent.node.injEq] at hbmp
              exact haq hbmp.symm
            have hbne_x : ∀ x, ind.right = some x → b ≠ x := by
              intro x hx hbx
              subst hbx
              obtain ⟨⟨xnd, hxnd, hxp⟩, _⟩ := hxfacts b hx
              rw [hxnd, Option.some.injEq] at hbm
              subst hbm
              rw [hxp, Parent.node.injEq] at hbmp
              exact hai hbmp.symm
            obtain ⟨m', hm', hp⟩ := hpm3x b bm hbm hbne_q hbne_i hbne_x
            exact ⟨m', hm', by rw [hp]; exact hbmp⟩
        · by_cases hax : ind.right = some a
          · obtain ⟨⟨xnd, hxnd, _⟩, _⟩ := hxfacts a hax
            have ha4 := hA4 a xnd hax hxnd
            rw [ha4, Option.some.injEq] at ha
            subst ha
            have hab' : xnd.left = some b := hab
            obtain ⟨bm, hbm, hbmp⟩ := hWF.okL a xnd b hxnd hab'
            have hbne_q : b ≠ q := by
              intro h
              subst h
              rw [hq, Option.some.injEq] at hbm
              subst hbm
              exact hag hbmp
            have hbne_i : b ≠ i := by
              intro h
              subst h
              rw [hi, Option.some.injEq] at hbm
              subst hbm
              rw [hip, Parent.node.injEq] at hbmp
              exact haq hbmp.symm
            have hbne_x : ∀ x, ind.right = some x → b ≠ x := by
              intro x hx hbx
              subst hbx
              obtain ⟨⟨xnd2, hxnd2, hxp2⟩, _⟩ := hxfacts b hx
              rw [hxnd2, Option.some.injEq] at hbm
              subst hbm
              rw [hxp2, Parent.node.injEq] at hbmp
              exact hai hbmp.symm
            obtain ⟨m', hm', hp⟩ := hpm3x b bm hbm hbne_q hbne_i hbne_x
            exact ⟨m', hm', by rw [hp]; exact hbmp⟩
          · have hfr := hA5 a haq hai (fun p hp hap => hag (hap ▸ hp))
              (fun x hx hax2 => hax (hax2 ▸ hx))
            rw [hfr] at ha
            obtain ⟨bm, hbm, hbmp⟩ := hWF.okL a am' b ha hab
            have hbne_q : b ≠ q := by
              intro h
              subst h
              rw [hq, Option.some.injEq] at hbm
              subst hbm
              exact hag hbmp
            have hbne_i : b ≠ i := by
              intro h
              subst h
              rw [hi, Option.some.injEq] at hbm
              subst hbm
              rw [hip, Parent.node.injEq] at hbmp
              exact haq hbmp.symm
            have hbne_x : ∀ x, ind.right = some x → b ≠ x := by
              intro x hx hbx
              subst hbx
              obtain ⟨⟨xnd2, hxnd2, hxp2⟩, _⟩ := hxfacts b hx
              rw [hxnd2, Option.some.injEq] at hbm
              subst hbm
              rw [hxp2, Parent.node.injEq] at hbmp
              exact hai hbmp.symm
            obtain ⟨m', hm', hp⟩ := hpm3x b bm hbm hbne_q hbne_i hbne_x
            exact ⟨m', hm', by rw [hp]; exact hbmp⟩
  · -- okR
    intro a am' b ha hab
    by_cases haq : a = q
    · subst haq
      rw [hA2, Option.some.injEq] at ha
      subst ha
      have hab' : qnd.right = some b := hab
      obtain ⟨bm, hbm, hbmp⟩ := hWF.okR a qnd b hq hab'
      have hbne_q : b ≠ a := by
        intro h
        subst h
        rw [hbm, Option.some.injEq] at hq
        subst hq
        exact hqp_ne_q hbmp
      have hbne_i : b ≠ i := by
        intro h
        rw [h] at hab'
        exact hWF.okD a qnd i hq hql hab'
      have hbne_x : ∀ x, ind.right = some x → b ≠ x := by
        intro x hx hbx
        subst hbx
        obtain ⟨⟨xnd2, hxnd2, hxp2⟩, _⟩ := hxfacts b hx
        rw [hxnd2, Option.some.injEq] at hbm
        subst hbm
        rw [hxp2, Parent.node.injEq] at hbmp
        exact hqi hbmp.symm
      obtain ⟨m', hm', hp⟩ := hpm3x b bm hbm hbne_q hbne_i hbne_x
      exact ⟨m', hm', by rw [hp]; exact hbmp⟩
    · by_cases hai : a = i
      · subst hai
        rw [hA1, Option.some.injEq] at ha
        subst ha
        have hab' : (some q : Option Nat) = some b := hab
        rw [Option.some.injEq] at hab'
        subst hab'
        exact ⟨_, hA2, rfl⟩
      · by_cases hag : qnd.parent = .node a
        · obtain ⟨gnd, hgnd, _⟩ := hWF.okP q qnd a hq hag
          have ha3 := hA3 a gnd hag hgnd
          by_cases hslot : gnd.left = some q
          · rw [if_pos hslot] at ha3
            rw [ha3, Option.some.injEq] at ha
            subst ha
            have hab' : gnd.right = some b := hab
            obtain ⟨bm, hbm, hbmp⟩ := hWF.okR a gnd b hgnd hab'
            have hbne_q : b ≠ q := by
              intro h
              rw [h] at hab'
              exact hWF.okD a gnd q hgnd hslot hab'
            have hbne_i : b ≠ i := by
              intro h
              subst h
              rw [hi, Option.some.injEq] at hbm
              subst hbm
              rw [hip, Parent.node.injEq] at hbmp
              exact haq hbmp.symm
            have hbne_x : ∀ x, ind.right = some x → b ≠ x := by
              intro x hx hbx
              subst hbx
              obtain ⟨⟨xnd2, hxnd2, hxp2⟩, _⟩ := hxfacts b hx
              rw [hxnd2, Option.some.injEq] at hbm
              subst hbm
              rw [hxp2, Parent.node.injEq] at hbmp
              exact hai hbmp.symm
            obtain ⟨m', hm', hp⟩ := hpm3x b bm hbm hbne_q hbne_i hbne_x
            exact ⟨m', hm', by rw [hp]; exact hbmp⟩
          · rw [if_neg hslot] at ha3
            rw [ha3, Option.some.injEq] at ha
            subst ha
            have hab' : (some i : Option Nat) = some b := hab
            rw [Option.some.injEq] at hab'
            subst hab'
            exact ⟨_, hA1, hag⟩
        · by_cases hax : ind.right = some a
          · obtain ⟨⟨xnd, hxnd, _⟩, _⟩ := hxfacts a hax
            have ha4 := hA4 a xnd hax hxnd
            rw [ha4, Option.some.injEq] at ha
            subst ha
            have hab' : xnd.right = some b := hab
            obtain ⟨bm, hbm, hbmp⟩ := hWF.okR a xnd b hxnd hab'
            have hbne_q : b ≠ q := by
              intro h
              subst h
              rw [hq, Option.some.injEq] at hbm
              subst hbm
              exact hag hbmp
            have hbne_i : b ≠ i := by
              intro h
              subst h
              rw [hi, Option.some.injEq] at hbm
              subst hbm
              rw [hip, Parent.node.injEq] at hbmp
              exact haq hbmp.symm
            have hbne_x : ∀ x, ind.right = some x → b ≠ x := by
              intro x hx hbx
              subst hbx
              obtain ⟨⟨xnd2, hxnd2, hxp2⟩, _⟩ := hxfacts b hx
              rw [hxnd2, Option.some.injEq] at hbm
              subst hbm
              rw [hxp2, Parent.node.injEq] at hbmp
              exact hai hbmp.symm
            obtain ⟨m', hm', hp⟩ := hpm3x b bm hbm hbne_q hbne_i hbne_x
            exact ⟨m', hm', by rw [hp]; exact hbmp⟩
          · have hfr := hA5 a haq hai (fun p hp hap => hag (hap ▸ hp))
              (fun x hx hax2 => hax (hax2 ▸ hx))
            rw [hfr] at ha
            obtain ⟨bm, hbm, hbmp⟩ := hWF.okR a am' b ha hab
            have hbne_q : b ≠ q := by
              intro h
              subst h
              rw [hq, Option.some.injEq] at hbm
              subst hbm
              exact hag hbmp
            have hbne_i : b ≠ i := by
              intro h
              subst h
              rw [hi, Option.some.injEq] at hbm
              subst hbm
              rw [hip, Parent.node.injEq] at hbmp
              exact haq hbmp.symm
            have hbne_x : ∀ x, ind.right = some x → b ≠ x := by
              intro x hx hbx
              subst hbx
              obtain ⟨⟨xnd2, hxnd2, hxp2⟩, _⟩ := hxfacts b hx
              rw [hxnd2, Option.some.injEq] at hbm
              subst hbm
              rw [hxp2, Parent.node.injEq] at hbmp
              exact hai hbmp.symm
            obtain ⟨m', hm', hp⟩ := hpm3x b bm hbm hbne_q hbne_i hbne_x
            exact ⟨m', hm', by rw [hp]; exact hbmp⟩
  · -- okP
    intro b bnd' a hb hbp
    by_cases hbi : b = i
    · subst hbi
      rw [hA1, Option.some.injEq] at hb
      subst hb
      have hbp' : qnd.parent = .node a := hbp
      obtain ⟨gnd, hgnd, _⟩ := hWF.okP q qnd a hq hbp'
      have ha3 := hA3 a gnd hbp' hgnd
      by_cases hslot : gnd.left = some q
      · rw [if_pos hslot] at ha3
        exact ⟨_, ha3, Or.inl rfl⟩
      · rw [if_neg hslot] at ha3
        exact ⟨_, ha3, Or.inr rfl⟩
    · by_cases hbq : b = q
      · subst hbq
        rw [hA2, Option.some.injEq] at hb
        subst hb
        have hbp' : (Parent.node i) = .node a := hbp
        rw [Parent.node.injEq] at hbp'
        subst hbp'
        exact ⟨_, hA1, Or.inr rfl⟩
      · by_cases hbx : ind.right = some b
        · obtain ⟨⟨xnd, hxnd, hxp⟩, _⟩ := hxfacts b hbx
          rw [hA4 b xnd hbx hxnd, Option.some.injEq] at hb
          subst hb
          have hbp' : (Parent.node q) = .node a := hbp
          rw [Parent.node.injEq] at hbp'
          subst hbp'
          exact ⟨_, hA2, Or.inl hbx⟩
        · by_cases hbg : qnd.parent = .node b
          · -- b is the old grandparent g; its parent pointer is unchanged
            obtain ⟨g, rest2, hrest, hgp, hgch⟩ :
                ∃ g rest2, rest = g :: rest2 ∧ qnd.parent = .node g ∧
                  ChainIs f2 g (g :: rest2) := by
              rcases hqparfacts with ⟨_, hnp⟩ | h
              · exact absurd hbg (hnp b)
              · exact h
            have hgb : g = b := by
              rw [hgp] at hbg
              rw [Parent.node.injEq] at hbg
              exact hbg
            subst hgb
            obtain ⟨gnd, hgnd, _⟩ := hWF.okP q qnd g hq hbg
            have hb3 := hA3 g gnd hbg hgnd
            by_cases hslot : gnd.left = some q
            all_goals (
              first
                | rw [if_pos hslot] at hb3
                | rw [if_neg hslot] at hb3) <;>
            (rw [hb3, Option.some.injEq] at hb
             subst hb
             have hbp2 : gnd.parent = .node a := hbp
             obtain ⟨am, ham, hamslot⟩ := hWF.okP g gnd a hgnd hbp2
             have hamem : a ∈ rest2 := by
               cases hgch with
               | top hg2 hnp2 =>
                 rw [hgnd, Option.some.injEq] at hg2
                 subst hg2
                 exact absurd hbp2 (hnp2 a)
               | step hg2 hp2 hc2 =>
                 rw [hgnd, Option.some.injEq] at hg2
                 subst hg2
                 rw [hbp2, Parent.node.injEq] at hp2
                 obtain ⟨ch', hch'⟩ := chainIs_shape hc2
                 rw [← hp2] at hch'
                 rw [hch']
                 exact List.mem_cons_self _ _
             have hamemr : a ∈ rest := by rw [hrest]; exact List.mem_cons_of_mem _ hamem
             obtain ⟨hane_q, hane_i, hane_x⟩ := hrest_ne a hamemr
             have hane_g : a ≠ g := by
               intro h
               subst h
               have hnd2 := chainIs_nodup hgch
               rw [List.nodup_cons] at hnd2
               exact hnd2.1 hamem
             have hfrA : f3.getN a = f2.getN a :=
               hA5 a hane_q hane_i
                 (fun p hp hap => by rw [hgp, Parent.node.injEq] at hp; exact hane_g (hap.trans hp.symm)) hane_x
             exact ⟨am, by rw [hfrA]; exact ham, hamslot⟩)
          · -- b is outside the written set
            have hfr := hA5 b hbq hbi (fun p hp hbp2 => hbg (hbp2 ▸ hp))
              (fun x hx hbx2 => hbx (hbx2 ▸ hx))
            rw [hfr] at hb
            obtain ⟨am, ham, hamslot⟩ := hWF.okP b bnd' a hb hbp
            by_cases haq : a = q
            · subst haq
              rw [hq, Option.some.injEq] at ham
              subst ham
              rcases hamslot with hsl | hsl
              · rw [hql, Option.some.injEq] at hsl
                exact absurd hsl.symm hbi
              · exact ⟨_, hA2, Or.inr hsl⟩
            · by_cases hai : a = i
              · subst hai
                rw [hi, Option.some.injEq] at ham
                subst ham
                rcases hamslot with hsl | hsl
                · exact ⟨_, hA1, Or.inl hsl⟩
                · exact absurd (hsl ▸ rfl : ind.right = some b) hbx
              · by_cases hag : qnd.parent = .node a
                · obtain ⟨gnd, hgnd, hgslot⟩ := hWF.okP q qnd a hq hag
                  rw [hgnd, Option.some.injEq] at ham
                  subst ham
                  have ha3 := hA3 a gnd hag hgnd
                  by_cases hslot : gnd.left = some q
                  · rw [if_pos hslot] at ha3
                    rcases hamslot with hsl | hsl
                    · rw [hslot, Option.some.injEq] at hsl
                      exact absurd hsl.symm hbq
                    · exact ⟨_, ha3, Or.inr hsl⟩
                  · rw [if_neg hslot] at ha3
                    rcases hamslot with hsl | hsl
                    · exact ⟨_, ha3, Or.inl hsl⟩
                    · have hgr : gnd.right = some q := by
                        rcases hgslot with h | h
                        · exact absurd h hslot
                        · exact h
                      rw [hgr, Option.some.injEq] at hsl
                      exact absurd hsl.symm hbq
                · by_cases hax : ind.right = some a
                  · obtain ⟨⟨xnd, hxnd, _⟩, _⟩ := hxfacts a hax
                    rw [hxnd, Option.some.injEq] at ham
                    subst ham
                    exact ⟨_, hA4 a xnd hax hxnd, hamslot⟩
                  · have hfra := hA5 a haq hai (fun p hp hap => hag (hap ▸ hp))
                      (fun x hx hax2 => hax (hax2 ▸ hx))
                    exact ⟨am, by rw [hfra]; exact ham, hamslot⟩
  · -- okD
    intro a am' b ha hab
    by_cases haq : a = q
    · subst haq
      rw [hA2, Option.some.injEq] at ha
      subst ha
      have hab' : ind.right = some b := hab
      show qnd.right ≠ some b
      intro hcon
      obtain ⟨bm, hbm, hbp⟩ := hWF.okR a qnd b hq hcon
      obtain ⟨⟨xnd, hxnd, hxp⟩, _⟩ := hxfacts b hab'
      rw [hxnd, Option.some.injEq] at hbm
      subst hbm
      rw [hxp, Parent.node.injEq] at hbp
      exact hqi hbp.symm
    · by_cases hai : a = i
      · subst hai
        rw [hA1, Option.some.injEq] at ha
        subst ha
        have hab' : ind.left = some b := hab
        show (some q : Option Nat) ≠ some b
        intro hcon
        rw [Option.some.injEq] at hcon
        subst hcon
        obtain ⟨qm, hqm, hqmp⟩ := hWF.okL a ind q hi hab'
        rw [hq, Option.some.injEq] at hqm
        subst hqm
        exact hqp_ne_i hqmp
      · by_cases hag : qnd.parent = .node a
        · obtain ⟨gnd, hgnd, _⟩ := hWF.okP q qnd a hq hag
          have ha3 := hA3 a gnd hag hgnd
          by_cases hslot : gnd.left = some q
          · rw [if_pos hslot] at ha3
            rw [ha3, Option.some.injEq] at ha
            subst ha
            have hab' : (some i : Option Nat) = some b := hab
            rw [Option.some.injEq] at hab'
            subst hab'
            show gnd.right ≠ some i
            intro hcon
            obtain ⟨im, him, himp⟩ := hWF.okR a gnd i hgnd hcon
            rw [hi, Option.some.injEq] at him
            subst him
            rw [hip, Parent.node.injEq] at himp
            exact haq himp.symm
          · rw [if_neg hslot] at ha3
            rw [ha3, Option.some.injEq] at ha
            subst ha
            have hab' : gnd.left = some b := hab
            show (some i : Option Nat) ≠ some b
            intro hcon
            rw [Option.some.injEq] at hcon
            subst hcon
            obtain ⟨im, him, himp⟩ := hWF.okL a gnd i hgnd hab'
            rw [hi, Option.some.injEq] at him
            subst him
            rw [hip, Parent.node.injEq] at himp
            exact haq himp.symm
        · by_cases hax : ind.right = some a
          · obtain ⟨⟨xnd, hxnd, _⟩, _⟩ := hxfacts a hax
            rw [hA4 a xnd hax hxnd, Option.some.injEq] at ha
            subst ha
            exact hWF.okD a xnd b hxnd hab
          · have hfr := hA5 a haq hai (fun p hp hap => hag (hap ▸ hp))
              (fun x hx hax2 => hax (hax2 ▸ hx))
            rw [hfr] at ha
            exact hWF.okD a am' b ha hab

theorem node_mirror_mirror (nd : Node P) : nd.mirror.mirror = nd := rfl

theorem mirror_mirror (f : Forest P) : f.mirror.mirror = f := by
  cases f with
  | mk nodes index =>
    show Forest.mk ((nodes.map Node.mirror).map Node.mirror) index = Forest.mk nodes index
    rw [List.map_map]
    congr 1
    have h : (Node.mirror ∘ Node.mirror : Node P → Node P) = id := by
      funext nd
      exact node_mirror_mirror nd
    rw [h, List.map_id]

theorem getN_mirror (f : Forest P) (i : Nat) :
    f.mirror.getN i = (f.getN i).map Node.mirror := by
  show (f.nodes.map Node.mirror).get? i = (f.nodes.get? i).map Node.mirror
  simp [List.get?_eq_getElem?, List.getElem?_map]

theorem wf_mirror {f : Forest P} (h : WF f) : WF f.mirror := by
  refine ⟨?_, ?_, ?_, ?_⟩
  · intro i nd j hi hl
    rw [getN_mirror, Option.map_eq_some'] at hi
    obtain ⟨nd0, hnd0, hmir⟩ := hi
    subst hmir
    have hr : nd0.right = some j := hl
    obtain ⟨m, hm, hp⟩ := h.okR i nd0 j hnd0 hr
    exact ⟨m.mirror, by rw [getN_mirror, hm]; rfl, hp⟩
  · intro i nd j hi hl
    rw [getN_mirror, Option.map_eq_some'] at hi
    obtain ⟨nd0, hnd0, hmir⟩ := hi
    subst hmir
    have hr : nd0.left = some j := hl
    obtain ⟨m, hm, hp⟩ := h.okL i nd0 j hnd0 hr
    exact ⟨m.mirror, by rw [getN_mirror, hm]; rfl, hp⟩
  · intro i nd p hi hp
    rw [getN_mirror, Option.map_eq_some'] at hi
    obtain ⟨nd0, hnd0, hmir⟩ := hi
    subst hmir
    have hp' : nd0.parent = .node p := hp
    obtain ⟨m, hm, hsl⟩ := h.okP i nd0 p hnd0 hp'
    exact ⟨m.mirror, by rw [getN_mirror, hm]; rfl, hsl.symm⟩
  · intro i nd j hi hl
    rw [getN_mirror, Option.map_eq_some'] at hi
    obtain ⟨nd0, hnd0, hmir⟩ := hi
    subst hmir
    have hr : nd0.right = some j := hl
    intro hcon
    exact h.okD i nd0 j hnd0 hcon hr

theorem chainIs_mirror {f : Forest P} {a : Nat} {ch : List Nat} (h : ChainIs f a ch) :
    ChainIs f.mirror a ch := by
  refine chainIs_of_parentEq_on h ?_
  intro z _
  rw [getN_mirror]
  cases f.getN z <;> rfl

/-- The mirror image of `lift_step_right`: the local picture after a
`rotate_left` at `q` that lifts its right child `i`, together with the
frame conditions, preserves well-formedness and shortens the lifted
node's ancestor chain by one. -/
theorem lift_step_left {f2 f3 : Forest P} {i q : Nat} {rest : List Nat} {ind qnd : Node P}
    (hWF : WF f2)
    (hch : ChainIs f2 i (i :: q :: rest))
    (hi : f2.getN i = some ind) (hq : f2.getN q = some qnd)
    (hqr : qnd.right = some i)
    (hA1 : f3.getN i = some { ind with left := some q, parent := qnd.parent })
    (hA2 : f3.getN q = some { qnd with right := ind.left, parent := .node i })
    (hA3 : ∀ p pnd, qnd.parent = .node p → f2.getN p = some pnd →
      f3.getN p = some (if pnd.left = some q then { pnd with left := some i }
                        else { pnd with right := some i }))
    (hA4 : ∀ x xnd, ind.left = some x → f2.getN x = some xnd →
      f3.getN x = some { xnd with parent := .node q })
    (hA5 : ∀ y, y ≠ q → y ≠ i → (∀ p, qnd.parent = .node p → y ≠ p) →
      (∀ x, ind.left = some x → y ≠ x) → f3.getN y = f2.getN y) :
    WF f3 ∧ ChainIs f3 i (i :: rest) ∧ ChainIs f3 q (q :: i :: rest) ∧
      (∀ y ynd, f2.getN y = some ynd → ynd.parent = .node i →
        ChainIs f3 y (y :: i :: rest) ∨ ChainIs f3 y (y :: q :: i :: rest)) := by
  have hWFm := wf_mirror hWF
  have hchm := chainIs_mirror hch
  have him : f2.mirror.getN i = some ind.mirror := by rw [getN_mirror, hi]; rfl
  have hqm : f2.mirror.getN q = some qnd.mirror := by rw [getN_mirror, hq]; rfl
  have hqlm : qnd.mirror.left = some i := hqr
  have hA1m : f3.mirror.getN i =
      some { ind.mirror with right := some q, parent := qnd.mirror.parent } := by
    rw [getN_mirror, hA1]
    rfl
  have hA2m : f3.mirror.getN q =
      some { qnd.mirror with left := ind.mirror.right, parent := .node i } := by
    rw [getN_mirror, hA2]
    rfl
  have hA3m : ∀ p pnd, qnd.mirror.parent = .node p → f2.mirror.getN p = some pnd →
      f3.mirror.getN p = some (if pnd.left = some q then { pnd with left := some i }
                        else { pnd with right := some i }) := by
    intro p pm hp hpm
    have hp' : qnd.parent = .node p := hp
    rw [getN_mirror, Option.map_eq_some'] at hpm
    obtain ⟨pnd, hpnd, hmir⟩ := hpm
    subst hmir
    have h3 := hA3 p pnd hp' hpnd
    obtain ⟨m, hm, hsl⟩ := hWF.okP q qnd p hq hp'
    rw [hpnd, Option.some.injEq] at hm
    subst hm
    by_cases hL : pnd.left = some q
    · have hRne : pnd.right ≠ some q := hWF.okD p pnd q hpnd hL
      rw [if_pos hL] at h3
      rw [getN_mirror, h3]
      have hneg : pnd.mirror.left ≠ some q := hRne
      rw [if_neg hneg]
      rfl
    · have hR : pnd.right = some q := by
        rcases hsl with h | h
        · exact absurd h hL
        · exact h
      rw [if_neg hL] at h3
      rw [getN_mirror, h3]
      have hpos : pnd.mirror.left = some q := hR
      rw [if_pos hpos]
      rfl
  have hA4m : ∀ x xnd, ind.mirror.right = some x → f2.mirror.getN x = some xnd →
      f3.mirror.getN x = some { xnd with parent := .node q } := by
    intro x xm hx hxm
    have hx' : ind.left = some x := hx
    rw [getN_mirror, Option.map_eq_some'] at hxm
    obtain ⟨xnd, hxnd, hmir⟩ := hxm
    subst hmir
    rw [getN_mirror, hA4 x xnd hx' hxnd]
    rfl
  have hA5m : ∀ y, y ≠ q → y ≠ i → (∀ p, qnd.mirror.parent = .node p → y ≠ p) →
      (∀ x, ind.mirror.right = some x → y ≠ x) → f3.mirror.getN y = f2.mirror.getN y := by
    intro y h1 h2 h3 h4
    rw [getN_mirror, getN_mirror, hA5 y h1 h2 h3 h4]
  obtain ⟨hW3, hc1, hc2, hcd⟩ :=
    lift_step_right hWFm hchm him hqm hqlm hA1m hA2m hA3m hA4m hA5m
  refine ⟨?_, ?_, ?_, ?_⟩
  · have h := wf_mirror hW3
    rwa [mirror_mirror] at h
  · have h := chainIs_mirror hc1
    rwa [mirror_mirror] at h
  · have h := chainIs_mirror hc2
    rwa [mirror_mirror] at h
  · intro y ynd hy hyp
    have hym : f2.mirror.getN y = some ynd.mirror := by rw [getN_mirror, hy]; rfl
    have hypm : ynd.mirror.parent = .node i := hyp
    rcases hcd y ynd.mirror hym hypm with h | h
    · left
      have h2 := chainIs_mirror h
      rwa [mirror_mirror] at h2
    · right
      have h2 := chainIs_mirror h
      rwa [mirror_mirror] at h2

/-- `Forest::rotate` at a node `i` with splay parent `q` succeeds on a
well-formed forest, preserves well-formedness, and lifts `i` one step up
its ancestor chain (`q` becomes `i`'s child); a former splay child of `i`
ends up hanging below `i` or below `q`. -/
theorem rotate_core {ops : PathOps P} {f : Forest P} {i q : Nat} {rest : List Nat}
    (hWF : WF f) (hch : ChainIs f i (i :: q :: rest)) :
    ∃ f', f.rotate ops i = some f' ∧ WF f' ∧
      ChainIs f' i (i :: rest) ∧ ChainIs f' q (q :: i :: rest) ∧
      (∀ y ynd, f.getN y = some ynd → ynd.parent = .node i →
        ChainIs f' y (y :: i :: rest) ∨ ChainIs f' y (y :: q :: i :: rest)) := by
  obtain ⟨ind, hi⟩ := chainIs_getN hch
  have hip : ind.parent = .node q := chainIs_step_parent hch hi
  have hqch : ChainIs f q (q :: rest) := chainIs_tail hch
  obtain ⟨qnd, hq⟩ := chainIs_getN hqch
  have hnodup := chainIs_nodup hch
  have hqi : q ≠ i := by
    intro h
    subst h
    simp at hnodup
  have hinrest : i ∉ rest := by
    intro h
    simp [List.nodup_cons] at hnodup
    exact hnodup.1.2 h
  have hqnrest : q ∉ rest := by
    intro h
    simp [List.nodup_cons] at hnodup
    exact hnodup.2.1 h
  have hqself : qnd.parent ≠ .node q := by
    cases hqch with
    | top hg hnp =>
      rw [hq, Option.some.injEq] at hg
      subst hg
      exact hnp q
    | step hg hp2 hc =>
      rw [hq, Option.some.injEq] at hg
      subst hg
      rw [hp2]
      intro hcon
      rw [Parent.node.injEq] at hcon
      obtain ⟨rest2, hrest2⟩ := chainIs_shape hc
      subst hcon
      exact hqnrest (hrest2 ▸ List.mem_cons_self _ _)
  -- normalize the parent
  obtain ⟨fa, qa, hfa, hqa, hqapar, hqaslots, hpmA, hlmA, hrmA, hWFa⟩ :=
    normalize_spec hWF hq hqself
  have hcha : ChainIs fa i (i :: q :: rest) :=
    chainIs_of_parentEq_on hch (fun z _ => hpmA z)
  obtain ⟨ia, hia, hiapar⟩ : ∃ m, fa.getN i = some m ∧ m.parent = .node q := by
    have h := hpmA i
    rw [hi, Option.map_some', hip, Option.map_eq_some'] at h
    obtain ⟨m, hm, hp2⟩ := h
    exact ⟨m, hm, hp2⟩
  have hiself : ia.parent ≠ .node i := by
    rw [hiapar]
    intro hcon
    rw [Parent.node.injEq] at hcon
    exact hqi hcon
  -- normalize the node itself
  obtain ⟨fb, ib, hfb, hib, hibpar, hibslots, hpmB, hlmB, hrmB, hWFb⟩ :=
    normalize_spec hWFa hia hiself
  have hibq : ib.parent = .node q := by rw [hibpar]; exact hiapar
  have hchb : ChainIs fb i (i :: q :: rest) :=
    chainIs_of_parentEq_on hcha (fun z _ => hpmB z)
  obtain ⟨qb, hqb⟩ : ∃ m, fb.getN q = some m := by
    have h := hpmB q
    rw [hqa, Option.map_some', Option.map_eq_some'] at h
    obtain ⟨m, hm, _⟩ := h
    exact ⟨m, hm⟩
  have hqbch : ChainIs fb q (q :: rest) := chainIs_tail hchb
  have hp_facts : ∀ p, qb.parent = .node p → p ∈ rest ∧ ∃ pnd, fb.getN p = some pnd := by
    intro p hp
    cases hqbch with
    | top hg hnp =>
      rw [hqb, Option.some.injEq] at hg
      subst hg
      exact absurd hp (hnp p)
    | step hg hp2 hc =>
      rw [hqb, Option.some.injEq] at hg
      subst hg
      rw [hp2, Parent.node.injEq] at hp
      subst hp
      obtain ⟨rest2, hrest2⟩ := chainIs_shape hc
      obtain ⟨pnd, hpnd⟩ := chainIs_getN hc
      exact ⟨hrest2 ▸ List.mem_cons_self _ _, pnd, hpnd⟩
  have hp' : ∀ p, qb.parent = .node p → p ≠ q ∧ p ≠ i ∧ ∃ pnd, fb.getN p = some pnd := by
    intro p hp
    obtain ⟨hmem, hrec⟩ := hp_facts p hp
    exact ⟨fun h => hqnrest (h ▸ hmem), fun h => hinrest (h ▸ hmem), hrec⟩
  have hslot : qb.left = some i ∨ qb.right = some i := by
    obtain ⟨m, hm, hsl⟩ := hWFb.okP i ib q hib hibq
    rw [hqb, Option.some.injEq] at hm
    subst hm
    exact hsl
  have hx_common : ∀ x xnd, fb.getN x = some xnd → xnd.parent = .node i →
      x ≠ q ∧ x ≠ i ∧ (∀ p, qb.parent = .node p → x ≠ p) := by
    intro x xnd hxnd hxp
    have hxnm := chainIs_child_not_mem hchb hxnd hxp
    simp [List.mem_cons] at hxnm
    refine ⟨hxnm.2.1, hxnm.1, ?_⟩
    intro p hp hxep
    obtain ⟨hmem, _⟩ := hp_facts p hp
    exact hxnm.2.2 (hxep ▸ hmem)
  -- the post-rotation transfer of a former splay child of i, and assembly
  rcases hslot with hql | hqr
  · -- i is q's left child: rotate_right at q
    have hx' : ∀ x, ib.right = some x →
        x ≠ q ∧ x ≠ i ∧ (∀ p, qb.parent = .node p → x ≠ p) ∧
        ∃ xnd, fb.getN x = some xnd := by
      intro x hx
      obtain ⟨xnd, hxnd, hxp⟩ := hWFb.okR i ib x hib hx
      obtain ⟨h1, h2, h3⟩ := hx_common x xnd hxnd hxp
      exact ⟨h1, h2, h3, xnd, hxnd⟩
    obtain ⟨f3, hrot, hAq, hAi, hA3, hA4, hA5⟩ :=
      rotate_right_spec hqb hql hib hqi hp' hx'
    obtain ⟨hWF3, hchi3, hchq3, hchild3⟩ :=
      lift_step_right hWFb hchb hib hqb hql hAi hAq hA3 hA4 hA5
    obtain ⟨f4, hupd, hpm4, hlm4, hrm4, hWF4⟩ := update_spec hWF3 hAq
    have hchi4 : ChainIs f4 i (i :: rest) :=
      chainIs_of_parentEq_on hchi3 (fun z _ => hpm4 z)
    have hchq4 : ChainIs f4 q (q :: i :: rest) :=
      chainIs_of_parentEq_on hchq3 (fun z _ => hpm4 z)
    refine ⟨f4, ?_, hWF4, hchi4, hchq4, ?_⟩
    · show f.rotate ops i = some f4
      unfold rotate
      rw [hi, Option.some_bind, hip]
      show ((f.normalize q).bind fun f1 =>
        (f1.normalize i).bind fun f2 =>
        (f2.getN q).bind fun pn =>
        (if pn.left = some i then f2.rotate_right q else f2.rotate_left q).bind fun f3 =>
        f3.update ops q) = some f4
      rw [hfa, Option.some_bind, hfb, Option.some_bind, hqb, Option.some_bind,
        if_pos hql, hrot, Option.some_bind]
      exact hupd
    · intro y ynd hy hyp
      obtain ⟨yb, hyb, hybp⟩ : ∃ m, fb.getN y = some m ∧ m.parent = .node i := by
        have h1 := hpmA y
        have h2 := hpmB y
        rw [h1] at h2
        rw [hy, Option.map_some', hyp, Option.map_eq_some'] at h2
        obtain ⟨m, hm, hp2⟩ := h2
        exact ⟨m, hm, hp2⟩
      rcases hchild3 y yb hyb hybp with h | h
      · exact Or.inl (chainIs_of_parentEq_on h (fun z _ => hpm4 z))
      · exact Or.inr (chainIs_of_parentEq_on h (fun z _ => hpm4 z))
  · -- i is q's right child: rotate_left at q
    have hqlne : qb.left ≠ some i := by
      intro h
      exact hWFb.okD q qb i hqb h hqr
    have hx' : ∀ x, ib.left = some x →
        x ≠ q ∧ x ≠ i ∧ (∀ p, qb.parent = .node p → x ≠ p) ∧
        ∃ xnd, fb.getN x = some xnd := by
      intro x hx
      obtain ⟨xnd, hxnd, hxp⟩ := hWFb.okL i ib x hib hx
      obtain ⟨h1, h2, h3⟩ := hx_common x xnd hxnd hxp
      exact ⟨h1, h2, h3, xnd, hxnd⟩
    obtain ⟨f3, hrot, hAq, hAi, hA3, hA4, hA5⟩ :=
      rotate_left_spec hqb hqr hib hqi hp' hx'
    obtain ⟨hWF3, hchi3, hchq3, hchild3⟩ :=
      lift_step_left hWFb hchb hib hqb hqr hAi hAq hA3 hA4 hA5
    obtain ⟨f4, hupd, hpm4, hlm4, hrm4, hWF4⟩ := update_spec hWF3 hAq
    have hchi4 : ChainIs f4 i (i :: rest) :=
      chainIs_of_parentEq_on hchi3 (fun z _ => hpm4 z)
    have hchq4 : ChainIs f4 q (q :: i :: rest) :=
      chainIs_of_parentEq_on hchq3 (fun z _ => hpm4 z)
    refine ⟨f4, ?_, hWF4, hchi4, hchq4, ?_⟩
    · show f.rotate ops i = some f4
      unfold rotate
      rw [hi, Option.some_bind, hip]
      show ((f.normalize q).bind fun f1 =>
        (f1.normalize i).bind fun f2 =>
        (f2.getN q).bind fun pn =>
        (if pn.left = some i then f2.rotate_right q else f2.rotate_left q).bind fun f3 =>
        f3.update ops q) = some f4
      rw [hfa, Option.some_bind, hfb, Option.some_bind, hqb, Option.some_bind,
        if_neg hqlne, hrot, Option.some_bind]
      exact hupd
    · intro y ynd hy hyp
      obtain ⟨yb, hyb, hybp⟩ : ∃ m, fb.getN y = some m ∧ m.parent = .node i := by
        have h1 := hpmA y
        have h2 := hpmB y
        rw [h1] at h2
        rw [hy, Option.map_some', hyp, Option.map_eq_some'] at h2
        obtain ⟨m, hm, hp2⟩ := h2
        exact ⟨m, hm, hp2⟩
      rcases hchild3 y yb hyb hybp with h | h
      · exact Or.inl (chainIs_of_parentEq_on h (fun z _ => hpm4 z))
      · exact Or.inr (chainIs_of_parentEq_on h (fun z _ => hpm4 z))

/-- The splay loop terminates: with fuel at least the length of the node's
ancestor chain, `splayGo` returns a well-formed forest in which the node
is the root of its splay tree. -/
theorem splayGo_terminates {ops : PathOps P} (fuel : Nat) :
    ∀ (f : Forest P) (i : Nat) (ch : List Nat), WF f → ChainIs f i ch → ch.length ≤ fuel →
    ∃ f', splayGo ops fuel f i = some f' ∧ WF f' ∧ ChainIs f' i [i] := by
  induction fuel with
  | zero =>
    intro f i ch _ hch hlen
    obtain ⟨rest0, hsh⟩ := chainIs_shape hch
    subst hsh
    simp at hlen
  | succ fuel ih =>
    intro f i ch hWF hch hlen
    obtain ⟨rest0, hsh⟩ := chainIs_shape hch
    subst hsh
    obtain ⟨nd, hn⟩ := chainIs_getN hch
    cases rest0 with
    | nil =>
      -- the node is already a splay root: normalize and refresh
      have hnp : ∀ p, nd.parent ≠ .node p := by
        cases hch with
        | top hg hnp2 =>
          rw [hg, Option.some.injEq] at hn
          subst hn
          exact hnp2
        | step _ _ hc =>
          obtain ⟨ch', hch'⟩ := chainIs_shape hc
          cases hch'
      obtain ⟨fa, ia, hfa, hia, hiap, _, hpmA, _, _, hWFa⟩ :=
        normalize_spec hWF hn (hnp i)
      obtain ⟨f4, hupd, hpm4, _, _, hWF4⟩ := update_spec hWFa hia
      have hch4 : ChainIs f4 i [i] := by
        have h1 := hpm4 i
        rw [hia, Option.map_some', Option.map_eq_some'] at h1
        obtain ⟨m, hm, hp2⟩ := h1
        refine ChainIs.top hm ?_
        intro p
        rw [hp2, hiap]
        exact hnp p
      refine ⟨f4, ?_, hWF4, hch4⟩
      unfold splayGo
      cases hpar : nd.parent with
      | node p => exact absurd hpar (hnp p)
      | root =>
        simp only [hn, Option.some_bind, hpar]
        rw [hfa, Option.some_bind]
        exact hupd
      | path j =>
        simp only [hn, Option.some_bind, hpar]
        rw [hfa, Option.some_bind]
        exact hupd
    | cons q rest =>
      have hnq : nd.parent = .node q := chainIs_step_parent hch hn
      have hqch : ChainIs f q (q :: rest) := chainIs_tail hch
      obtain ⟨qnd, hq⟩ := chainIs_getN hqch
      cases rest with
      | nil =>
        -- zig: the parent is the splay root
        have hqnp : ∀ p, qnd.parent ≠ .node p := by
          cases hqch with
          | top hg hnp2 =>
            rw [hg, Option.some.injEq] at hq
            subst hq
            exact hnp2
          | step _ _ hc =>
            obtain ⟨ch', hch'⟩ := chainIs_shape hc
            cases hch'
        obtain ⟨f2, hrot, hWF2, hch2, _, _⟩ := rotate_core hWF hch
        have hfuel : (1 : Nat) ≤ fuel := by
          simp [List.length_cons] at hlen
          omega
        obtain ⟨f', heq, hWF', hch'⟩ := ih f2 i [i] hWF2 hch2 (by simpa using hfuel)
        refine ⟨f', ?_, hWF', hch'⟩
        unfold splayGo
        simp only [hn, Option.some_bind, hnq]
        cases hqp : qnd.parent with
        | node p => exact absurd hqp (hqnp p)
        | root =>
          simp only [hq, Option.some_bind, hqp]
          rw [hrot, Option.some_bind]
          exact heq
        | path j =>
          simp only [hq, Option.some_bind, hqp]
          rw [hrot, Option.some_bind]
          exact heq
      | cons g rest2 =>
        have hgq : qnd.parent = .node g := chainIs_step_parent hqch hq
        have hgch : ChainIs f g (g :: rest2) := chainIs_tail hqch
        obtain ⟨gnd, hg⟩ := chainIs_getN hgch
        have hlen2 : rest2.length + 2 ≤ fuel := by
          simp [List.length_cons] at hlen
          omega
        by_cases hzz : (gnd.left = some q) = (qnd.left = some i)
        · -- zig-zig shape: rotate the parent first, then the node
          obtain ⟨f1, hrot1, hWF1, hchq1, hchg1, hchild1⟩ := rotate_core hWF hqch
          rcases hchild1 i nd hn hnq with hc1 | hc1
          · obtain ⟨f2, hrot2, hWF2, hchi2, _, _⟩ := rotate_core hWF1 hc1
            obtain ⟨f', heq, hWF', hch'⟩ := ih f2 i (i :: rest2) hWF2 hchi2
              (by simp [List.length_cons]; omega)
            refine ⟨f', ?_, hWF', hch'⟩
            unfold splayGo
            simp only [hn, Option.some_bind, hnq, hq, hgq, hg]
            rw [if_pos hzz, hrot1, Option.some_bind, hrot2, Option.some_bind]
            exact heq
          · obtain ⟨f2, hrot2, hWF2, hchi2, _, _⟩ := rotate_core hWF1 hc1
            obtain ⟨f', heq, hWF', hch'⟩ := ih f2 i (i :: q :: rest2) hWF2 hchi2
              (by simp [List.length_cons]; omega)
            refine ⟨f', ?_, hWF', hch'⟩
            unfold splayGo
            simp only [hn, Option.some_bind, hnq, hq, hgq, hg]
            rw [if_pos hzz, hrot1, Option.some_bind, hrot2, Option.some_bind]
            exact heq
        · -- zig-zag shape: rotate the node twice
          obtain ⟨f1, hrot1, hWF1, hchi1, _, _⟩ := rotate_core hWF hch
          obtain ⟨f2, hrot2, hWF2, hchi2, _, _⟩ := rotate_core hWF1 hchi1
          obtain ⟨f', heq, hWF', hch'⟩ := ih f2 i (i :: rest2) hWF2 hchi2
            (by simp [List.length_cons]; omega)
          refine ⟨f', ?_, hWF', hch'⟩
          unfold splayGo
          simp only [hn, Option.some_bind, hnq, hq, hgq, hg]
          rw [if_neg hzz, hrot1, Option.some_bind, hrot2, Option.some_bind]
          exact heq

end Forest

theorem length_accessGo {P : Type} {ops : PathOps P} {fuel : Nat} {f f' : Forest P} {v : Nat}
    (h : accessGo ops fuel f v = some f') : f'.nodes.length = f.nodes.length := by
  induction fuel generalizing f with
  | zero => cases h
  | succ fuel ih =>
    unfold accessGo at h
    rw [Option.bind_eq_some] at h
    obtain ⟨pp, _, h⟩ := h
    split at h
    · rw [Option.bind_eq_some] at h
      obtain ⟨f1, h1, h⟩ := h
      rw [Option.bind_eq_some] at h
      obtain ⟨f2, h2, h⟩ := h
      rw [Option.bind_eq_some] at h
      obtain ⟨f3, h3, h⟩ := h
      rw [Option.bind_eq_some] at h
      obtain ⟨f4, h4, h⟩ := h
      have := ih h
      have := Forest.length_splay h4
      have := Forest.length_set_right h3
      have := Forest.length_remove_preferred_child h2
      have := Forest.length_splay h1
      omega
    · cases h; rfl

theorem length_access {P : Type} {ops : PathOps P} {f f' : Forest P} {v : Nat}
    (h : access ops f v = some f') : f'.nodes.length = f.nodes.length := by
  unfold access at h
  rw [Option.bind_eq_some] at h
  obtain ⟨f1, h1, h⟩ := h
  rw [Option.bind_eq_some] at h
  obtain ⟨f2, h2, h⟩ := h
  have := length_accessGo h
  have := Forest.length_remove_preferred_child h2
  have := Forest.length_splay h1
  omega

theorem length_reroot {P : Type} {ops : PathOps P} {f f' : Forest P} {v : Nat}
    (h : reroot ops f v = some f') : f'.nodes.length = f.nodes.length := by
  unfold reroot at h
  rw [Option.bind_eq_some] at h
  obtain ⟨f1, h1, h⟩ := h
  have := Forest.length_flip h
  have := length_access h1
  omega


/-! ## Out-of-range behaviour of the public operations (claim C7) -/

theorem splay_oob {P : Type} {ops : PathOps P} {f : Forest P} {v : Nat}
    (h : f.nodes.length ≤ v) : f.splay ops v = none := by
  simp [Forest.splay, Forest.splayGo, Forest.getN_oob h]

theorem access_oob {P : Type} {ops : PathOps P} {f : Forest P} {v : Nat}
    (h : f.nodes.length ≤ v) : access ops f v = none := by
  simp [access, splay_oob h]

theorem findroot_oob {P : Type} {ops : PathOps P} {f : Forest P} {v : Nat}
    (h : f.nodes.length ≤ v) : findroot ops f v = none := by
  simp [findroot, access_oob h]

theorem reroot_oob {P : Type} {ops : PathOps P} {f : Forest P} {v : Nat}
    (h : f.nodes.length ≤ v) : reroot ops f v = none := by
  simp [reroot, access_oob h]

theorem length_findroot {P : Type} {ops : PathOps P} {f : Forest P} {v r : Nat} {f' : Forest P}
    (h : findroot ops f v = some (r, f')) : f'.nodes.length = f.nodes.length := by
  unfold findroot at h
  rw [Option.bind_eq_some] at h
  obtain ⟨f1, h1, h⟩ := h
  rw [Option.bind_eq_some] at h
  obtain ⟨root, _, h⟩ := h
  rw [Option.map_eq_some'] at h
  obtain ⟨f2, h2, h⟩ := h
  cases h
  have := Forest.length_splay h2
  have := length_access h1
  omega

/-- **C7 — counterexample.**  The claim says every public operation on an
invalid id fails fatally, naming `connected(v, v)` in particular.  But
`connected` short-circuits on `v == w` before touching the node vector, so
`connected(5, 5)` on an empty forest returns the normal value `true`; and a
freed (but in-range) id is not detected at all: after `remove_tree(1)` the
query `connected(0, 1)` still returns the normal value `false`. -/
theorem C7_counterexample :
    (connected FindMax.ops (Forest.new (P := FindMax)) 5 5).map Prod.fst = some true ∧
    ((remove_tree
        ((make_tree FindMax.ops ((make_tree FindMax.ops Forest.new (F64.fin 0)).2)
          (F64.fin 0)).2) 1).bind fun f2 =>
      (connected FindMax.ops f2 0 1).map Prod.fst) = some false :=
  ⟨rfl, rfl⟩

/-- **C7 — amended.**  Every public operation invoked with an out-of-range
id fails fatally, with the single exception of `connected(v, w)` with
`v = w`, which returns `true` without touching the node vector (freed
in-range ids are not detected at all; they are treated as live). -/
theorem C7_invalid_id_behavior {P : Type} (ops : PathOps P) (f : Forest P) (v w : Nat)
    (hv : f.nodes.length ≤ v) :
    connected ops f v v = some (true, f) ∧
    findroot ops f v = none ∧
    reroot ops f v = none ∧
    remove_tree f v = none ∧
    path ops f v w = none ∧ path ops f w v = none ∧
    linked ops f v w = none ∧ linked ops f w v = none ∧
    cut ops f v w = none ∧ cut ops f w v = none ∧
    link ops f v w = none ∧ link ops f w v = none ∧
    (v ≠ w → connected ops f v w = none ∧ connected ops f w v = none) := by
  have hacc2 : ∀ g : Forest P, g.nodes.length = f.nodes.length → access ops g v = none := by
    intro g hg
    exact access_oob (by omega)
  have hfst : ∀ (A : Type) (k : Bool × Forest P → Option A),
      True := fun _ _ => trivial
  refine ⟨by simp [connected], findroot_oob hv, reroot_oob hv, ?_, ?_, ?_, ?_, ?_, ?_, ?_, ?_, ?_, ?_⟩
  · simp [remove_tree, Forest.delete_node, Forest.getN_oob hv]
  · simp [path, reroot_oob hv]
  · unfold path
    cases hr : reroot ops f w with
    | none => rfl
    | some f1 =>
      rw [Option.some_bind, hacc2 f1 (length_reroot hr)]
      rfl
  · simp [linked, reroot_oob hv]
  · unfold linked
    cases hr : reroot ops f w with
    | none => rfl
    | some f1 =>
      rw [Option.some_bind, hacc2 f1 (length_reroot hr)]
      rfl
  · simp [cut, linked, reroot_oob hv]
  · unfold cut linked
    cases hr : reroot ops f w with
    | none => rfl
    | some f1 =>
      rw [Option.some_bind, hacc2 f1 (length_reroot hr)]
      rfl
  · simp [link, reroot_oob hv]
  · unfold link
    cases hr : reroot ops f w with
    | none => rfl
    | some f1 =>
      rw [Option.some_bind, hacc2 f1 (length_reroot hr)]
      rfl
  · intro hne
    constructor
    · unfold connected
      rw [if_neg hne, findroot_oob hv]
      rfl
    · unfold connected
      rw [if_neg (Ne.symm hne)]
      cases hr : findroot ops f w with
      | none => rfl
      | some p =>
        obtain ⟨rw_, f1⟩ := p
        rw [Option.some_bind]
        have : findroot ops f1 v = none := by
          unfold findroot
          rw [hacc2 f1 (length_findroot hr)]
          rfl
        simp [this]

/-- **C7 — witness** for `C7_invalid_id_behavior` at `P = FindMax`, the
empty forest, `v = 5`, `w = 6`. -/
theorem C7_invalid_id_behavior_witness :
    connected FindMax.ops (Forest.new (P := FindMax)) 5 5 = some (true, Forest.new) ∧
    path FindMax.ops (Forest.new (P := FindMax)) 5 6 = none ∧
    connected FindMax.ops (Forest.new (P := FindMax)) 5 6 = none := by
  have h := C7_invalid_id_behavior FindMax.ops (Forest.new (P := FindMax)) 5 6 (by decide)
  exact ⟨h.1, h.2.2.2.2.1, (h.2.2.2.2.2.2.2.2.2.2.2.2 (by decide)).1⟩

/-! ## The id allocator (claim C8) -/

/-- **C8 — counterexample.**  The claim says `delete(id)` fails fatally
when `id` is already on the free list.  But after three inserts (issuing
ids 0, 1, 2), deleting id 1 twice succeeds: the second `delete(1)` merely
pushes a duplicate onto the free list. -/
theorem C8_counterexample :
    (((((IndexAlloc.mk 0 []).insert.2).insert.2).insert.2).delete 1).bind
      (fun a => a.delete 1) = some ⟨3, [1, 1]⟩ :=
  rfl

/-- **C8 — amended.**  `delete(id)` fails fatally exactly when
`id ≥ time_id`, i.e. when `id` was never issued by the fresh-id counter
(every id previously returned by `insert` is below `time_id`); an id that
is already on the free list is accepted again, so double deletion without
an intervening insert is not detected. -/
theorem C8_delete_fatal_iff (a : IndexAlloc) (id : Nat) :
    a.delete id = none ↔ a.time_id ≤ id := by
  unfold IndexAlloc.delete
  split
  · simp
    omega
  · simp
    omega


/-! ## The rotation primitives (claim C9) -/

/-- **C9.**  For every node `n` whose right child is `r`, `rotate_left(n)`
gives `r` exactly `n`'s former position under `n`'s parent with the parent
tag preserved exactly (`Node`, `Root`, or `Path` — a path-parent tag
migrates from `n` to `r`), makes `n` the left child of `r`, and makes
`r`'s former left child the right child of `n`; `rotate_right` is the
mirror image.  Stated under the structural side conditions that hold in
any consistent splay forest. -/
theorem C9_rotations (P : Type) :
    (∀ (f : Forest P) n r nd rnd,
      f.getN n = some nd → nd.right = some r → f.getN r = some rnd → n ≠ r →
      (∀ p, nd.parent = .node p → p ≠ n ∧ p ≠ r ∧ ∃ pnd, f.getN p = some pnd) →
      (∀ x, rnd.left = some x →
        x ≠ n ∧ x ≠ r ∧ (∀ p, nd.parent = .node p → x ≠ p) ∧ ∃ xnd, f.getN x = some xnd) →
      ∃ f', f.rotate_left n = some f' ∧
        f'.getN n = some { nd with right := rnd.left, parent := .node r } ∧
        f'.getN r = some { rnd with left := some n, parent := nd.parent } ∧
        (∀ p pnd, nd.parent = .node p → f.getN p = some pnd →
          f'.getN p = some (if pnd.left = some n then { pnd with left := some r }
                            else { pnd with right := some r })) ∧
        (∀ x xnd, rnd.left = some x → f.getN x = some xnd →
          f'.getN x = some { xnd with parent := .node n }) ∧
        (∀ y, y ≠ n → y ≠ r → (∀ p, nd.parent = .node p → y ≠ p) →
          (∀ x, rnd.left = some x → y ≠ x) → f'.getN y = f.getN y)) ∧
    (∀ (f : Forest P) n l nd lnd,
      f.getN n = some nd → nd.left = some l → f.getN l = some lnd → n ≠ l →
      (∀ p, nd.parent = .node p → p ≠ n ∧ p ≠ l ∧ ∃ pnd, f.getN p = some pnd) →
      (∀ x, lnd.right = some x →
        x ≠ n ∧ x ≠ l ∧ (∀ p, nd.parent = .node p → x ≠ p) ∧ ∃ xnd, f.getN x = some xnd) →
      ∃ f', f.rotate_right n = some f' ∧
        f'.getN n = some { nd with left := lnd.right, parent := .node l } ∧
        f'.getN l = some { lnd with right := some n, parent := nd.parent } ∧
        (∀ p pnd, nd.parent = .node p → f.getN p = some pnd →
          f'.getN p = some (if pnd.left = some n then { pnd with left := some l }
                            else { pnd with right := some l })) ∧
        (∀ x xnd, lnd.right = some x → f.getN x = some xnd →
          f'.getN x = some { xnd with parent := .node n }) ∧
        (∀ y, y ≠ n → y ≠ l → (∀ p, nd.parent = .node p → y ≠ p) →
          (∀ x, lnd.right = some x → y ≠ x) → f'.getN y = f.getN y)) :=
  ⟨fun _ _ _ _ _ h1 h2 h3 h4 h5 h6 => Forest.rotate_left_spec h1 h2 h3 h4 h5 h6,
   fun _ _ _ _ _ h1 h2 h3 h4 h5 h6 => Forest.rotate_right_spec h1 h2 h3 h4 h5 h6⟩

/-- **C9 — witness**: `rotate_left(0)` on the five-node forest of the
`rotate_left_root` unit test of `src/splay.rs`; node 2 takes the root
position, 0 becomes its left child, and 2's former left child 3 becomes
the right child of 0. -/
theorem C9_rotations_witness :
    ∃ f', rotTestForest.rotate_left 0 = some f' ∧
      (f'.getN 2).map (fun m => m.parent) = some Parent.root ∧
      (f'.getN 2).map (fun m => m.left) = some (some 0) ∧
      (f'.getN 0).map (fun m => m.parent) = some (Parent.node 2) ∧
      (f'.getN 0).map (fun m => m.right) = some (some 3) := by
  obtain ⟨f', hrun, hn, hr, _, _, _⟩ :=
    (C9_rotations FindMax).1 rotTestForest 0 2
      { idx := 0, left := some 1, right := some 2, parent := .root, flipped := false,
        weight := .fin 0, path := ⟨0, .fin 0⟩, degree := 0 }
      { idx := 2, left := some 3, right := some 4, parent := .node 0, flipped := false,
        weight := .fin 2, path := ⟨2, .fin 2⟩, degree := 0 }
      (by decide) rfl (by decide) (by decide)
      (by intro p h; cases h)
      (by
        intro x hx
        have hx3 : some (3 : Nat) = some x := hx
        cases hx3
        refine ⟨by decide, by decide, ?_, ?_⟩
        · intro p h
          cases h
        · exact ⟨_, rfl⟩)
  refine ⟨f', hrun, ?_, ?_, ?_, ?_⟩
  · rw [hr]; rfl
  · rw [hr]; rfl
  · rw [hn]; rfl
  · rw [hn]; rfl

theorem wf_of_wfCheck {P : Type} {f : Forest P} (h : wfCheck f = true) : WF f := by
  have hnode : ∀ i nd, f.getN i = some nd → wfCheckNode f i = true := by
    intro i nd hi
    rw [wfCheck, List.all_eq_true] at h
    exact h i (List.mem_range.mpr (Forest.getN_lt hi))
  refine ⟨?_, ?_, ?_, ?_⟩
  · intro i nd j h1 h2
    have hc := hnode i nd h1
    simp only [wfCheckNode, h1, h2, Bool.and_eq_true] at hc
    obtain ⟨⟨⟨hcl, _⟩, _⟩, _⟩ := hc
    cases hj : f.getN j with
    | none => simp [hj] at hcl
    | some m =>
      simp only [hj, decide_eq_true_eq] at hcl
      exact ⟨m, rfl, hcl⟩
  · intro i nd j h1 h2
    have hc := hnode i nd h1
    simp only [wfCheckNode, h1, h2, Bool.and_eq_true] at hc
    obtain ⟨⟨⟨_, hcr⟩, _⟩, _⟩ := hc
    cases hj : f.getN j with
    | none => simp [hj] at hcr
    | some m =>
      simp only [hj, decide_eq_true_eq] at hcr
      exact ⟨m, rfl, hcr⟩
  · intro i nd p h1 h2
    have hc := hnode i nd h1
    simp only [wfCheckNode, h1, h2, Bool.and_eq_true] at hc
    obtain ⟨⟨⟨_, _⟩, hcp⟩, _⟩ := hc
    cases hp2 : f.getN p with
    | none => simp [hp2] at hcp
    | some m =>
      simp only [hp2, Bool.or_eq_true, decide_eq_true_eq] at hcp
      exact ⟨m, rfl, hcp⟩
  · intro i nd j h1 h2
    have hc := hnode i nd h1
    simp only [wfCheckNode, h1, h2, Bool.and_eq_true] at hc
    obtain ⟨⟨⟨_, _⟩, _⟩, hcd⟩ := hc
    simp only [decide_eq_true_eq] at hcd
    exact hcd

theorem rotTestForest_wf : WF rotTestForest :=
  wf_of_wfCheck (by decide)

theorem rotTestForest_chain3 : ChainIs rotTestForest 3 [3, 2, 0] := by
  refine ChainIs.step rfl rfl (ChainIs.step rfl rfl (ChainIs.top rfl ?_))
  intro p h
  simp at h

/-- **C10**: on a well-formed forest in which the splay-parent links above
a live node `n` form a finite acyclic ancestor chain — as they do in every
state reachable through the public operations — `splay(n)` terminates
(the fuelled loop returns `some`), and on return `n`'s parent is not a
`Node(_)` variant: `n` is the root of its splay tree, carrying any
path-parent tag. -/
theorem C10_splay_terminates {P : Type} {ops : PathOps P} {f : Forest P} {n : Nat}
    {ch : List Nat} (hWF : WF f) (hch : ChainIs f n ch) :
    ∃ f' nd, f.splay ops n = some f' ∧ f'.getN n = some nd ∧
      ∀ p, nd.parent ≠ .node p := by
  obtain ⟨f', heq, hWF', hch'⟩ :=
    Forest.splayGo_terminates (f.nodes.length + 1) f n ch hWF hch
      (Nat.le_succ_of_le (Forest.chainIs_length_le hch))
  cases hch' with
  | top hg hnp => exact ⟨f', _, heq, hg, hnp⟩
  | step _ _ hc =>
    obtain ⟨ch2, hch2⟩ := Forest.chainIs_shape hc
    simp at hch2

/-- **C10 — witness**: splaying node 3 of the five-node test forest
terminates and leaves node 3 with a non-`Node` parent. -/
theorem C10_splay_terminates_witness :
    ∃ f' nd, rotTestForest.splay FindMax.ops 3 = some f' ∧ f'.getN 3 = some nd ∧
      ∀ p, nd.parent ≠ .node p :=
  C10_splay_terminates rotTestForest_wf rotTestForest_chain3

end LC
